import Mathlib

/-
Verification development for the dropsite-ai/config repository.

The Go sources are embedded shallowly: strings are Lean strings handled as
character lists, machine bytes are Nat taken modulo 256, reflect-style
heterogeneous values become the inductive GoVal, fallible operations return
an explicit error component, and the in-place mutation performed by the Go
code becomes explicit value passing (each processor returns the mutated
value together with the error, mirroring what the Go code leaves in memory).
External collaborators (the random source and the home directory provider)
are parameters, following the contracts in the specification.
-/

set_option maxHeartbeats 1600000
set_option maxRecDepth 4096

namespace DropsiteConfig

/-- Embeds strings.HasSuffix from the Go standard library, on rune lists. -/
def strHasSuffix (s suf : String) : Bool := List.isSuffixOf suf.data s.data

/-- Embeds the check strings.HasPrefix(path, "~") used by ExpandPath: the
prefix is a single character, so the test is on the first character. -/
def leadingTilde (s : String) : Bool := s.data.head? == some '~'

/-- Lowercase hexadecimal digit for a value below 16, as produced by
encoding/hex in the Go standard library. -/
def hexChar (n : Nat) : Char :=
  if n < 10 then Char.ofNat (48 + n) else Char.ofNat (87 + n)

/-- Two lowercase hexadecimal digits of one byte (taken modulo 256). -/
def byteHex (b : Nat) : List Char :=
  [hexChar ((b % 256) / 16), hexChar ((b % 256) % 16)]

/-- Embeds hex.EncodeToString from the Go standard library. -/
def hexEncodeBytes (bs : List Nat) : String := ⟨(bs.map byteHex).flatten⟩

/-- Embeds GenerateJWTSecret from secret.go: read 32 bytes from the secure
random source and hex encode them. The random source is the parameter rnd,
giving byte i of generation k; in this model it never fails. -/
def GenerateJWTSecret (rnd : Nat → Nat → Nat) (k : Nat) : String :=
  hexEncodeBytes ((List.range 32).map (rnd k))

/-- Split a character list on a separator, as strings.Split does (the result
is never empty; an empty input yields one empty segment). -/
def splitCh (sep : Char) : List Char → List (List Char)
  | [] => [[]]
  | c :: rest =>
    if c = sep then [] :: splitCh sep rest
    else
      match splitCh sep rest with
      | [] => [[c]]
      | s :: ss => (c :: s) :: ss

/-- Interleave a separator between segments, inverse of splitCh. -/
def joinCh (sep : Char) : List (List Char) → List Char
  | [] => []
  | [s] => s
  | s :: rest => s ++ sep :: joinCh sep rest

/-- Segment stack of path Clean from the Go standard library (unix rules):
empty and dot segments are dropped, a dotdot segment pops the last kept
segment, is dropped at the root, and is kept when nothing can be popped in a
relative path. -/
def cleanSegsGo (rooted : Bool) : List (List Char) → List (List Char) → List (List Char)
  | acc, [] => acc.reverse
  | acc, seg :: rest =>
    if seg = [] || seg = ['.'] then cleanSegsGo rooted acc rest
    else if seg = ['.', '.'] then
      match acc with
      | [] => if rooted then cleanSegsGo rooted [] rest else cleanSegsGo rooted [seg] rest
      | top :: acc2 =>
        if top = ['.', '.'] then cleanSegsGo rooted (seg :: acc) rest
        else cleanSegsGo rooted acc2 rest
    else cleanSegsGo rooted (seg :: acc) rest

/-- Embeds the lexical semantics of filepath.Clean from the Go standard
library with unix separators, via the segment decomposition of the path. -/
def pathCleanChars (s : List Char) : List Char :=
  let rooted : Bool := match s with | '/' :: _ => true | _ => false
  match cleanSegsGo rooted [] (splitCh '/' s) with
  | [] => if rooted then ['/'] else ['.']
  | out => if rooted then '/' :: joinCh '/' out else joinCh '/' out

/-- Clean on strings. -/
def pathClean (s : String) : String := ⟨pathCleanChars s.data⟩

/-- Embeds filepath.Join from the Go standard library for two elements:
empty elements are ignored and the result is cleaned. -/
def filepathJoin2 (a b : String) : String :=
  if a = "" then (if b = "" then "" else pathClean b)
  else if b = "" then pathClean a
  else pathClean (a ++ "/" ++ b)

/-- Error values surfaced by the scalar rules of process.go. -/
inductive PErr where
  | invalidUsername (u : String)
  | invalidURL (u : String)
  | homeDirUnavailable
deriving DecidableEq, Repr

/-- Embeds ExpandPath from the path helper file: a leading tilde is joined
with the home directory; other paths are returned unchanged. The home
directory provider os.UserHomeDir is the parameter home, with none standing
for a provider failure. -/
def ExpandPath (home : Option String) (path : String) : Except PErr String :=
  if leadingTilde path then
    match home with
    | none => .error .homeDirUnavailable
    | some h => .ok (filepathJoin2 h (String.mk (path.data.drop 1)))
  else .ok path

/-- First character class of the username pattern, by code point: a
lowercase letter (97 to 122) or an underscore (95). -/
def usernameFirstChar (c : Char) : Bool :=
  (97 ≤ c.toNat && c.toNat ≤ 122) || c.toNat = 95

/-- Remaining character class of the username pattern, by code point: a
lowercase letter, a digit (48 to 57), an underscore (95) or a dash (45). -/
def usernameRestChar (c : Char) : Bool :=
  (97 ≤ c.toNat && c.toNat ≤ 122) || (48 ≤ c.toNat && c.toNat ≤ 57) ||
    c.toNat = 95 || c.toNat = 45

/-- Embeds the anchored regular expression of validation.go: one first class
character followed by at most 31 rest class characters. -/
def usernameRegexMatch (s : String) : Bool :=
  match s.data with
  | [] => false
  | c :: rest => usernameFirstChar c && decide (rest.length ≤ 31) && rest.all usernameRestChar

/-- Embeds ValidateUsername from validation.go. -/
def ValidateUsername (u : String) : Except PErr Unit :=
  if usernameRegexMatch u then .ok () else .error (.invalidUsername u)

/-- Scheme and remainder split of a URL at the first scheme separator. -/
def findSchemeSplit : List Char → Option (List Char × List Char)
  | ':' :: '/' :: '/' :: rest => some ([], rest)
  | c :: rest =>
    match findSchemeSplit rest with
    | some (sch, tail) => some (c :: sch, tail)
    | none => none
  | [] => none

/-- Host part of the post scheme remainder, up to the first delimiter. -/
def hostPart (cs : List Char) : List Char :=
  cs.takeWhile (fun c => c ≠ '/' && c ≠ '?' && c ≠ '#')

/-- Scheme well formedness: a letter followed by letters, digits, plus,
dash or dot. -/
def schemeOk : List Char → Bool
  | [] => false
  | c :: rest => c.isAlpha && rest.all (fun d => d.isAlphanum || d = '+' || d = '-' || d = '.')

/-- Modelled from the spec: the URL validator consumes net/url.Parse of the
Go standard library, which is outside src; per the specification a URL is
accepted exactly when parsing gives a nonempty scheme and a nonempty host,
so this model recognizes scheme separator host shapes. -/
def urlHasSchemeHost (u : String) : Bool :=
  match findSchemeSplit u.data with
  | some (sch, rest) => schemeOk sch && !(hostPart rest).isEmpty
  | none => false

/-- Embeds ValidateURL from validation.go, over the modelled parser. -/
def ValidateURL (u : String) : Except PErr Unit :=
  if urlHasSchemeHost u then .ok () else .error (.invalidURL u)

/-- Embeds processString from process.go: dispatch on the suffix of the
field or key name, in source order. On an error the original value is
returned together with the error. The counter k indexes generations drawn
from the random source, so the result carries the next counter. -/
def processString (home : Option String) (rnd : Nat → Nat → Nat)
    (s fieldName : String) (k : Nat) : String × Nat × Option PErr :=
  if strHasSuffix fieldName "Secret" then
    if s = "" then (GenerateJWTSecret rnd k, k + 1, none) else (s, k, none)
  else if strHasSuffix fieldName "Path" then
    if s = "" then (s, k, none)
    else
      match ExpandPath home s with
      | .ok expanded => (expanded, k, none)
      | .error e => (s, k, some e)
  else if strHasSuffix fieldName "User" then
    if s = "" then (s, k, none)
    else
      match ValidateUsername s with
      | .ok _ => (s, k, none)
      | .error e => (s, k, some e)
  else if strHasSuffix fieldName "URL" then
    if s = "" then (s, k, none)
    else
      match ValidateURL s with
      | .ok _ => (s, k, none)
      | .error e => (s, k, some e)
  else (s, k, none)

/-- Heterogeneous configuration value, mirroring the reflect shapes handled
by processValue in process.go: strings, other scalars, structs with named
fields carrying an exported flag, maps with string keys, maps with integer
keys (standing for any non string key type), slices, pointers and interface
boxes. In Go a dynamic value is always concrete, so an iface node never
directly wraps another iface node in trees that come from real programs. -/
inductive GoVal where
  | str (s : String)
  | intV (n : Int)
  | boolV (b : Bool)
  | structV (fields : List (String × Bool × GoVal))
  | strMap (entries : List (String × GoVal))
  | intKeyMap (entries : List (Int × GoVal))
  | slice (elems : List GoVal)
  | ptrNil
  | ptrSome (v : GoVal)
  | iface (v : GoVal)
deriving Repr

mutual

/-- Embeds processValue from process.go. The flag canSet models reflect
addressability of v: the root of a value passed without a pointer is not
addressable, dereferencing a pointer restores addressability, and the
dynamic value inside an interface is never addressable. Mutation in place
becomes the returned value; on an error, parts already mutated in place
stay mutated (structs, pointer targets), while copies that the Go code
never stores back are dropped. Aliasing of maps and slices shared between
a discarded copy and the original is not modeled; it changes nothing on
the success path. -/
def processValue (home : Option String) (rnd : Nat → Nat → Nat) :
    GoVal → String → Bool → Nat → GoVal × Nat × Option PErr
  | .iface w, name, _, k =>
    let r := processValue home rnd w name false k
    (.iface r.1, r.2.1, r.2.2)
  | .ptrNil, _, _, k => (.ptrNil, k, none)
  | .ptrSome w, name, _, k =>
    let r := processValue home rnd w name true k
    (.ptrSome r.1, r.2.1, r.2.2)
  | .structV fields, _, canSet, k =>
    let r := processFields home rnd canSet fields k
    (.structV r.1, r.2.1, r.2.2)
  | .strMap entries, _, _, k =>
    let r := processEntries home rnd entries k
    (.strMap r.1, r.2.1, r.2.2)
  | .intKeyMap entries, _, _, k => (.intKeyMap entries, k, none)
  | .slice elems, name, _, k =>
    let r := processElems home rnd name elems k
    (.slice r.1, r.2.1, r.2.2)
  | .str s, name, canSet, k =>
    if canSet then
      let r := processString home rnd s name k
      match r.2.2 with
      | some e => (.str s, r.2.1, some e)
      | none => (.str r.1, r.2.1, none)
    else (.str s, k, none)
  | .intV n, _, _, k => (.intV n, k, none)
  | .boolV b, _, _, k => (.boolV b, k, none)

/-- Struct fields of process.go: unexported fields are skipped, a settable
string field goes through processStringField, every other field recurses
with the field name; the first error aborts the loop, leaving the failing
field and the remaining fields untouched. -/
def processFields (home : Option String) (rnd : Nat → Nat → Nat) (canSet : Bool) :
    List (String × Bool × GoVal) → Nat → List (String × Bool × GoVal) × Nat × Option PErr
  | [], k => ([], k, none)
  | (nm, ex, v) :: rest, k =>
    if ex then
      match v, canSet with
      | .str s, true =>
        let r := processString home rnd s nm k
        match r.2.2 with
        | some e => ((nm, ex, .str s) :: rest, r.2.1, some e)
        | none =>
          let rr := processFields home rnd canSet rest r.2.1
          ((nm, ex, .str r.1) :: rr.1, rr.2.1, rr.2.2)
      | _, _ =>
        let r := processValue home rnd v nm canSet k
        match r.2.2 with
        | some e => ((nm, ex, r.1) :: rest, r.2.1, some e)
        | none =>
          let rr := processFields home rnd canSet rest r.2.1
          ((nm, ex, r.1) :: rr.1, rr.2.1, rr.2.2)
    else
      let rr := processFields home rnd canSet rest k
      ((nm, ex, v) :: rr.1, rr.2.1, rr.2.2)

/-- Map entries of process.go: each value is unboxed and processed with the
key as the rule name; the store back through SetMapIndex happens only on
success, so on an error the failing entry keeps its original value. -/
def processEntries (home : Option String) (rnd : Nat → Nat → Nat) :
    List (String × GoVal) → Nat → List (String × GoVal) × Nat × Option PErr
  | [], k => ([], k, none)
  | (key, v) :: rest, k =>
    let r := processMapVal home rnd key v k
    match r.2.2 with
    | some e => ((key, v) :: rest, r.2.1, some e)
    | none =>
      let rr := processEntries home rnd rest r.2.1
      ((key, r.1) :: rr.1, rr.2.1, rr.2.2)

/-- One map value of process.go after the key is known: interface boxes are
peeled (the store back keeps the slot boxed), a string value goes through
processString with the key as name, container kinds are copied, recursed
into with full settability and stored back, and other scalars are left
alone. The container dispatch repeats the concrete cases of processValue at
full settability, which is what processing the addressable copy amounts
to. -/
def processMapVal (home : Option String) (rnd : Nat → Nat → Nat) (key : String) :
    GoVal → Nat → GoVal × Nat × Option PErr
  | .iface w, k =>
    let r := processMapVal home rnd key w k
    (.iface r.1, r.2.1, r.2.2)
  | .str s, k =>
    let r := processString home rnd s key k
    match r.2.2 with
    | some e => (.str s, r.2.1, some e)
    | none => (.str r.1, r.2.1, none)
  | .structV fields, k =>
    let r := processFields home rnd true fields k
    (.structV r.1, r.2.1, r.2.2)
  | .strMap entries, k =>
    let r := processEntries home rnd entries k
    (.strMap r.1, r.2.1, r.2.2)
  | .intKeyMap entries, k => (.intKeyMap entries, k, none)
  | .slice elems, k =>
    let r := processElems home rnd key elems k
    (.slice r.1, r.2.1, r.2.2)
  | .ptrNil, k => (.ptrNil, k, none)
  | .ptrSome w, k =>
    let r := processValue home rnd w key true k
    (.ptrSome r.1, r.2.1, r.2.2)
  | .intV n, k => (.intV n, k, none)
  | .boolV b, k => (.boolV b, k, none)

/-- Slice and array elements of process.go: each element keeps the
inherited name of the enclosing field or key. A direct string element is
addressable and is processed in place; container elements are copied,
recursed into and stored back; on an error the element keeps its original
value and the loop aborts. -/
def processElems (home : Option String) (rnd : Nat → Nat → Nat) (name : String) :
    List GoVal → Nat → List GoVal × Nat × Option PErr
  | [], k => ([], k, none)
  | e :: rest, k =>
    let r := processSliceElem home rnd name e k
    match r.2.2 with
    | some err => (e :: rest, r.2.1, some err)
    | none =>
      let rr := processElems home rnd name rest r.2.1
      (r.1 :: rr.1, rr.2.1, rr.2.2)

/-- One slice element of process.go. A string sitting directly in the slice
is settable and is processed; a string found after unboxing an interface
element is not settable (reflect Elem of an interface is never addressable)
and is skipped without error; container kinds are processed through the
addressable copy. -/
def processSliceElem (home : Option String) (rnd : Nat → Nat → Nat) (name : String) :
    GoVal → Nat → GoVal × Nat × Option PErr
  | .str s, k =>
    let r := processString home rnd s name k
    match r.2.2 with
    | some e => (.str s, r.2.1, some e)
    | none => (.str r.1, r.2.1, none)
  | .iface w, k =>
    let r := processSliceBoxed home rnd name w k
    (.iface r.1, r.2.1, r.2.2)
  | .structV fields, k =>
    let r := processFields home rnd true fields k
    (.structV r.1, r.2.1, r.2.2)
  | .strMap entries, k =>
    let r := processEntries home rnd entries k
    (.strMap r.1, r.2.1, r.2.2)
  | .intKeyMap entries, k => (.intKeyMap entries, k, none)
  | .slice elems, k =>
    let r := processElems home rnd name elems k
    (.slice r.1, r.2.1, r.2.2)
  | .ptrNil, k => (.ptrNil, k, none)
  | .ptrSome w, k =>
    let r := processValue home rnd w name true k
    (.ptrSome r.1, r.2.1, r.2.2)
  | .intV n, k => (.intV n, k, none)
  | .boolV b, k => (.boolV b, k, none)

/-- The dynamic value of a boxed slice element: identical to
processSliceElem except that a bare string is skipped, because after the
interface unwrap the reflect value no longer satisfies CanSet. -/
def processSliceBoxed (home : Option String) (rnd : Nat → Nat → Nat) (name : String) :
    GoVal → Nat → GoVal × Nat × Option PErr
  | .str s, k => (.str s, k, none)
  | .iface w, k =>
    let r := processSliceBoxed home rnd name w k
    (.iface r.1, r.2.1, r.2.2)
  | .structV fields, k =>
    let r := processFields home rnd true fields k
    (.structV r.1, r.2.1, r.2.2)
  | .strMap entries, k =>
    let r := processEntries home rnd entries k
    (.strMap r.1, r.2.1, r.2.2)
  | .intKeyMap entries, k => (.intKeyMap entries, k, none)
  | .slice elems, k =>
    let r := processElems home rnd name elems k
    (.slice r.1, r.2.1, r.2.2)
  | .ptrNil, k => (.ptrNil, k, none)
  | .ptrSome w, k =>
    let r := processValue home rnd w name true k
    (.ptrSome r.1, r.2.1, r.2.2)
  | .intV n, k => (.intV n, k, none)
  | .boolV b, k => (.boolV b, k, none)

end

/-- Embeds Process from process.go: run the traversal at the root with the
empty name. The reflect value of the root argument is not addressable, so
settability starts false and is restored when a pointer is dereferenced. -/
def Process (home : Option String) (rnd : Nat → Nat → Nat) (cfg : GoVal) :
    GoVal × Nat × Option PErr :=
  processValue home rnd cfg "" false 0

/-- Kind level image of a Go static type, as distinguished by the
assignability check of CopyProperty. Element and field types are not
tracked; the scalar slots the properties below speak about are fully
distinguished at this level. -/
inductive GoTy where
  | stringT
  | intT
  | boolT
  | structT
  | strMapT
  | intKeyMapT
  | sliceT
  | ptrT
  | ifaceT
deriving DecidableEq, Repr

/-- Type of the value currently held in a slot. -/
def tyOf : GoVal → GoTy
  | .str _ => .stringT
  | .intV _ => .intT
  | .boolV _ => .boolT
  | .structV _ => .structT
  | .strMap _ => .strMapT
  | .intKeyMap _ => .intKeyMapT
  | .slice _ => .sliceT
  | .ptrNil => .ptrT
  | .ptrSome _ => .ptrT
  | .iface _ => .ifaceT

/-- Embeds reflect AssignableTo at the kind level: identical types are
assignable, and every value is assignable to an empty interface slot. -/
def assignableTo (src dst : GoTy) : Bool := src = dst || dst = .ifaceT

/-- Errors of CopyProperty and of the nested field resolvers. -/
inductive CopyErr where
  | srcNotStructPointer
  | dstNotStructPointer
  | nilPointer (path : String)
  | expectedStruct (part path : String)
  | fieldNotFound (part path : String)
  | notSettable (part path : String)
  | typeMismatch (srcTy : GoTy) (dstPath : String) (dstTy : GoTy)
deriving DecidableEq, Repr

/-- First struct field with the given name, with its exported flag, as
reflect FieldByName finds it. -/
def findField (nm : String) : List (String × Bool × GoVal) → Option (Bool × GoVal)
  | [] => none
  | (fn, ex, v) :: rest => if fn = nm then some (ex, v) else findField nm rest

/-- Replace the value of the first struct field with the given name. -/
def replaceField (nm : String) (w : GoVal) :
    List (String × Bool × GoVal) → List (String × Bool × GoVal)
  | [] => []
  | (fn, ex, v) :: rest =>
    if fn = nm then (fn, ex, w) :: rest else (fn, ex, v) :: replaceField nm w rest

/-- Dot separated segments of a field path, as strings.Split produces
them. -/
def splitPath (path : String) : List String :=
  (splitCh '.' path.data).map String.mk

/-- Embeds the loop body of getNestedField: one pointer dereference per
segment, then the current node must be a struct and the segment must name
one of its fields. -/
def getNestedFieldAux (full : String) : GoVal → List String → Except CopyErr GoVal
  | v, [] => .ok v
  | v, part :: rest =>
    match v with
    | .ptrNil => .error (.nilPointer full)
    | .ptrSome inner =>
      match inner with
      | .structV fields =>
        match findField part fields with
        | none => .error (.fieldNotFound part full)
        | some (_, fv) => getNestedFieldAux full fv rest
      | _ => .error (.expectedStruct part full)
    | .structV fields =>
      match findField part fields with
      | none => .error (.fieldNotFound part full)
      | some (_, fv) => getNestedFieldAux full fv rest
    | _ => .error (.expectedStruct part full)

/-- Embeds getNestedField from the dot path copy file: traverse the dot
separated path for reading. -/
def getNestedField (v : GoVal) (path : String) : Except CopyErr GoVal :=
  getNestedFieldAux path v (splitPath path)

/-- Embeds the loop of getNestedFieldForWrite: same traversal, but the
final field must satisfy CanSet, which in reflect requires that neither the
final field nor any field on the way is unexported. The flag ro carries the
read only taint picked up from unexported fields. -/
def getNestedFieldForWriteAux (full : String) (ro : Bool) :
    GoVal → List String → Except CopyErr GoVal
  | v, [] => .ok v
  | v, part :: rest =>
    match v with
    | .ptrNil => .error (.nilPointer full)
    | .ptrSome inner =>
      match inner with
      | .structV fields =>
        match findField part fields with
        | none => .error (.fieldNotFound part full)
        | some (ex, fv) =>
          match rest with
          | [] => if ro || !ex then .error (.notSettable part full) else .ok fv
          | _ => getNestedFieldForWriteAux full (ro || !ex) fv rest
      | _ => .error (.expectedStruct part full)
    | .structV fields =>
      match findField part fields with
      | none => .error (.fieldNotFound part full)
      | some (ex, fv) =>
        match rest with
        | [] => if ro || !ex then .error (.notSettable part full) else .ok fv
        | _ => getNestedFieldForWriteAux full (ro || !ex) fv rest
    | _ => .error (.expectedStruct part full)

/-- Embeds getNestedFieldForWrite from the dot path copy file. -/
def getNestedFieldForWrite (v : GoVal) (path : String) : Except CopyErr GoVal :=
  getNestedFieldForWriteAux path false v (splitPath path)

/-- Functional image of writing through the settable slot returned by
getNestedFieldForWrite: rebuild the tree with the final field replaced. A
slot of static interface type keeps its box. -/
def setNestedField : GoVal → List String → GoVal → GoVal
  | v, [], _ => v
  | v, part :: rest, w =>
    let cur := match v with | .ptrSome inner => inner | x => x
    let rebuilt :=
      match cur with
      | .structV fields =>
        match findField part fields with
        | none => GoVal.structV fields
        | some (_, fv) =>
          let newFv :=
            match rest with
            | [] => match fv with | .iface _ => GoVal.iface w | _ => w
            | _ :: _ => setNestedField fv rest w
          GoVal.structV (replaceField part newFv fields)
      | other => other
    match v with
    | .ptrSome _ => GoVal.ptrSome rebuilt
    | _ => rebuilt

/-- Embeds CopyProperty from the dot path copy file: both roots must be
pointers to structs, the source path is resolved for reading, the
destination path for writing, the source type must be assignable to the
destination type, and then the destination slot receives the source value.
The Go function mutates the destination in place and returns only an
error; here the resulting source and destination trees are returned
together with the error, the source being returned untouched because the
code never writes through it. -/
def CopyProperty (src : GoVal) (srcFieldPath : String) (dst : GoVal) (dstFieldPath : String) :
    GoVal × GoVal × Option CopyErr :=
  match src with
  | .ptrSome (.structV srcFields) =>
    match dst with
    | .ptrSome (.structV dstFields) =>
      match getNestedField (GoVal.structV srcFields) srcFieldPath with
      | .error e => (src, dst, some e)
      | .ok srcSlot =>
        match getNestedFieldForWrite (GoVal.structV dstFields) dstFieldPath with
        | .error e => (src, dst, some e)
        | .ok dstSlot =>
          if assignableTo (tyOf srcSlot) (tyOf dstSlot) then
            (src,
             GoVal.ptrSome (setNestedField (GoVal.structV dstFields) (splitPath dstFieldPath) srcSlot),
             none)
          else (src, dst, some (.typeMismatch (tyOf srcSlot) dstFieldPath (tyOf dstSlot)))
    | _ => (src, dst, some .dstNotStructPointer)
  | _ => (src, dst, some .srcNotStructPointer)

/-- Lowercase hexadecimal digit test, for the shape of generated secrets. -/
def isHexDigitLower (c : Char) : Bool :=
  ('0' ≤ c && c ≤ '9') || ('a' ≤ c && c ≤ 'f')

/-- Leading slash test, used to state that the home directory is an
absolute path. -/
def leadingSlash (s : String) : Bool := s.data.head? == some '/'

/-- Hypothesis on the home directory provider: when it succeeds it returns
an absolute path. -/
def homeAbs : Option String → Prop
  | none => True
  | some h => leadingSlash h = true

/-- Postcondition of the scalar rule selected by a name, evaluated on the
value found after processing: a secret is nonempty, a path is a fixed
point of expansion (or empty), a user or URL is valid (or empty), and
names outside the rule vocabulary carry no obligation. -/
def scalarPost (home : Option String) (name s : String) : Bool :=
  if strHasSuffix name "Secret" then !(s == "")
  else if strHasSuffix name "Path" then
    (s == "") || (match ExpandPath home s with | .ok e => e == s | .error _ => false)
  else if strHasSuffix name "User" then (s == "") || usernameRegexMatch s
  else if strHasSuffix name "URL" then (s == "") || urlHasSchemeHost s
  else true

mutual

/-- Every string of v sitting in a position that the traversal processes
satisfies the postcondition of the rule selected by its inherited name.
The positions mirror processValue: settable direct strings, struct fields
under their own names, map values under their keys, slice elements under
the inherited name, pointer targets, and the content of interface boxes at
lost settability. -/
def goodVal (home : Option String) : GoVal → String → Bool → Bool
  | .str s, name, canSet => !canSet || scalarPost home name s
  | .iface w, name, _ => goodVal home w name false
  | .ptrNil, _, _ => true
  | .ptrSome w, name, _ => goodVal home w name true
  | .structV fs, _, canSet => goodFields home canSet fs
  | .strMap es, _, _ => goodEntries home es
  | .intKeyMap _, _, _ => true
  | .slice els, name, _ => goodElems home name els
  | .intV _, _, _ => true
  | .boolV _, _, _ => true

/-- Field list form of goodVal: only exported fields carry obligations. -/
def goodFields (home : Option String) (canSet : Bool) :
    List (String × Bool × GoVal) → Bool
  | [] => true
  | (nm, ex, v) :: rest =>
    (!ex || goodVal home v nm canSet) && goodFields home canSet rest

/-- Entry list form of goodVal. -/
def goodEntries (home : Option String) : List (String × GoVal) → Bool
  | [] => true
  | (key, v) :: rest => goodMapVal home key v && goodEntries home rest

/-- Map value form of goodVal: map values are processed at full
settability even through interface boxes. -/
def goodMapVal (home : Option String) (key : String) : GoVal → Bool
  | .iface w => goodMapVal home key w
  | .str s => scalarPost home key s
  | .structV fs => goodFields home true fs
  | .strMap es => goodEntries home es
  | .intKeyMap _ => true
  | .slice els => goodElems home key els
  | .ptrNil => true
  | .ptrSome w => goodVal home w key true
  | .intV _ => true
  | .boolV _ => true

/-- Element list form of goodVal under the inherited name. -/
def goodElems (home : Option String) (name : String) : List GoVal → Bool
  | [] => true
  | e :: rest => goodSliceElem home name e && goodElems home name rest

/-- Slice element form of goodVal: a direct string is processed under the
inherited name, a boxed string is skipped by the traversal and so carries
no obligation. -/
def goodSliceElem (home : Option String) (name : String) : GoVal → Bool
  | .str s => scalarPost home name s
  | .iface w => goodSliceBoxed home name w
  | .structV fs => goodFields home true fs
  | .strMap es => goodEntries home es
  | .intKeyMap _ => true
  | .slice els => goodElems home name els
  | .ptrNil => true
  | .ptrSome w => goodVal home w name true
  | .intV _ => true
  | .boolV _ => true

/-- Boxed slice element form of goodVal: same as goodSliceElem except a
bare string carries no obligation. -/
def goodSliceBoxed (home : Option String) (name : String) : GoVal → Bool
  | .str _ => true
  | .iface w => goodSliceBoxed home name w
  | .structV fs => goodFields home true fs
  | .strMap es => goodEntries home es
  | .intKeyMap _ => true
  | .slice els => goodElems home name els
  | .ptrNil => true
  | .ptrSome w => goodVal home w name true
  | .intV _ => true
  | .boolV _ => true

end

/-- A path segment that path cleaning keeps untouched: nonempty and neither
the dot nor the dotdot segment. -/
def GoodSeg (seg : List Char) : Prop := seg ≠ [] ∧ seg ≠ ['.'] ∧ seg ≠ ['.', '.']

instance (seg : List Char) : Decidable (GoodSeg seg) := by
  unfold GoodSeg; infer_instance

/-- A clean absolute path: a leading slash followed by a nonempty remainder
all of whose slash separated segments are kept by cleaning. -/
def cleanAbsPath (h : String) : Prop :=
  ∃ t, h.data = '/' :: t ∧ t ≠ [] ∧ ∀ seg ∈ splitCh '/' t, GoodSeg seg

/-- A clean relative path: nonempty, with every segment kept by cleaning. -/
def cleanRelPath (x : String) : Prop :=
  x.data ≠ [] ∧ ∀ seg ∈ splitCh '/' x.data, GoodSeg seg

/-- Acceptance predicate written from the specification words: a username
matches the anchored pattern exactly when it has between 1 and 32
characters, the first character is in the first class, and every later
character is in the rest class. -/
def specUsernameAccept (u : String) : Prop :=
  u.data ≠ [] ∧ u.data.length ≤ 32 ∧
    (∀ c, u.data.head? = some c → usernameFirstChar c = true) ∧
    (∀ c ∈ u.data.tail, usernameRestChar c = true)

/-- Modelled from the spec: dereference an indirection, with a nil
indirection reported as a nil reference error. -/
def derefIndirection (full : String) (v : GoVal) : Except CopyErr GoVal :=
  match v with
  | .ptrNil => .error (.nilPointer full)
  | .ptrSome inner => .ok inner
  | other => .ok other

/-- Modelled from the spec, read mode: at each segment the current node,
after dereferencing an indirection, must be struct shaped and must own the
segment as a field; the final value is returned as is. -/
def resolveReadSpec (full : String) : GoVal → List String → Except CopyErr GoVal
  | v, [] => .ok v
  | v, seg :: rest =>
    match derefIndirection full v with
    | .error e => .error e
    | .ok cur =>
      match cur with
      | .structV fields =>
        match findField seg fields with
        | none => .error (.fieldNotFound seg full)
        | some (_, fv) => resolveReadSpec full fv rest
      | _ => .error (.expectedStruct seg full)

/-- Modelled from the spec, write mode: same traversal, and the field at
the final segment must additionally be settable, else a not settable error
is reported. -/
def resolveWriteSpec (full : String) : Bool → GoVal → List String → Except CopyErr GoVal
  | _, v, [] => .ok v
  | ro, v, seg :: rest =>
    match derefIndirection full v with
    | .error e => .error e
    | .ok cur =>
      match cur with
      | .structV fields =>
        match findField seg fields with
        | none => .error (.fieldNotFound seg full)
        | some (ex, fv) =>
          match rest with
          | [] => if ro || !ex then .error (.notSettable seg full) else .ok fv
          | _ => resolveWriteSpec full (ro || !ex) fv rest
      | _ => .error (.expectedStruct seg full)

/-! Auxiliary lemmas -/

theorem data_append (s t : String) : (s ++ t).data = s.data ++ t.data := by
  cases s; cases t; rfl

theorem eq_empty_iff_data (s : String) : s = "" ↔ s.data = [] := by
  constructor
  · intro h
    rw [h]
  · intro h
    exact String.ext (h.trans rfl)

theorem hexChar_isHex : ∀ n, n < 16 → isHexDigitLower (hexChar n) = true := by decide

theorem byteHex_all_hex (b : Nat) : (byteHex b).all isHexDigitLower = true := by
  have h1 : b % 256 / 16 < 16 := by omega
  have h2 : b % 256 % 16 < 16 := by omega
  simp [byteHex, hexChar_isHex _ h1, hexChar_isHex _ h2]

theorem hexEncodeBytes_data (bs : List Nat) :
    (hexEncodeBytes bs).data = (bs.map byteHex).flatten := rfl

theorem hexEncodeBytes_length (bs : List Nat) :
    (hexEncodeBytes bs).data.length = 2 * bs.length := by
  induction bs with
  | nil => rfl
  | cons b rest ih =>
    simp only [hexEncodeBytes_data, List.map_cons, List.flatten_cons, List.length_append,
      List.length_cons, List.length_nil, byteHex] at ih ⊢
    omega

theorem hexEncodeBytes_all_hex (bs : List Nat) :
    (hexEncodeBytes bs).data.all isHexDigitLower = true := by
  induction bs with
  | nil => rfl
  | cons b rest ih =>
    simp only [hexEncodeBytes_data, List.map_cons, List.flatten_cons, List.all_append] at ih ⊢
    simp [byteHex_all_hex b, ih]

theorem GenerateJWTSecret_length (rnd : Nat → Nat → Nat) (k : Nat) :
    (GenerateJWTSecret rnd k).data.length = 64 := by
  unfold GenerateJWTSecret
  rw [hexEncodeBytes_length]
  simp

theorem GenerateJWTSecret_all_hex (rnd : Nat → Nat → Nat) (k : Nat) :
    (GenerateJWTSecret rnd k).data.all isHexDigitLower = true :=
  hexEncodeBytes_all_hex _

theorem GenerateJWTSecret_ne_empty (rnd : Nat → Nat → Nat) (k : Nat) :
    GenerateJWTSecret rnd k ≠ "" := by
  intro h
  have h2 := GenerateJWTSecret_length rnd k
  rw [h] at h2
  simp at h2

theorem leadingSlash_iff (s : String) : leadingSlash s = true ↔ ∃ r, s.data = '/' :: r := by
  unfold leadingSlash
  cases hd : s.data with
  | nil => simp
  | cons c cr =>
    simp only [List.head?_cons, beq_iff_eq, Option.some.injEq]
    constructor
    · intro h; exact ⟨cr, by rw [h]⟩
    · rintro ⟨r, hr⟩; cases hr; rfl

theorem leadingTilde_of_slash (s : String) (h : leadingSlash s = true) :
    leadingTilde s = false := by
  obtain ⟨r, hr⟩ := (leadingSlash_iff s).1 h
  unfold leadingTilde
  rw [hr]
  rfl

theorem pathCleanChars_rooted (cs : List Char) :
    ∃ r, pathCleanChars ('/' :: cs) = '/' :: r := by
  unfold pathCleanChars
  cases h : cleanSegsGo true [] (splitCh '/' ('/' :: cs)) with
  | nil => exact ⟨[], by simp [h]⟩
  | cons a out => exact ⟨joinCh '/' (a :: out), by simp [h]⟩

theorem filepathJoin2_rooted (h t : String) (hh : leadingSlash h = true) :
    leadingSlash (filepathJoin2 h t) = true := by
  obtain ⟨hr, hdata⟩ := (leadingSlash_iff h).1 hh
  have hne : h ≠ "" := by
    intro he; rw [eq_empty_iff_data] at he; rw [he] at hdata; cases hdata
  unfold filepathJoin2
  rw [if_neg hne]
  by_cases ht : t = ""
  · rw [if_pos ht]
    rw [leadingSlash_iff]
    unfold pathClean
    rw [hdata]
    obtain ⟨r, hrr⟩ := pathCleanChars_rooted hr
    exact ⟨r, by simp [hrr]⟩
  · rw [if_neg ht]
    rw [leadingSlash_iff]
    unfold pathClean
    have hd2 : (h ++ "/" ++ t).data = '/' :: (hr ++ '/' :: t.data) := by
      rw [data_append, data_append, hdata]
      simp
    rw [hd2]
    obtain ⟨r, hrr⟩ := pathCleanChars_rooted (hr ++ '/' :: t.data)
    exact ⟨r, by simp [hrr]⟩

theorem ExpandPath_no_tilde (home : Option String) (p : String)
    (h : leadingTilde p = false) : ExpandPath home p = .ok p := by
  simp [ExpandPath, h]

theorem ExpandPath_result_no_tilde (home : Option String) (p q : String)
    (hh : homeAbs home) (h : ExpandPath home p = .ok q) :
    ExpandPath home q = .ok q := by
  unfold ExpandPath at h
  by_cases hp : leadingTilde p = true
  · rw [if_pos hp] at h
    cases home with
    | none => cases h
    | some hd =>
      injection h with h1
      subst h1
      apply ExpandPath_no_tilde
      apply leadingTilde_of_slash
      exact filepathJoin2_rooted hd _ hh
  · rw [if_neg hp] at h
    injection h with h1
    subst h1
    apply ExpandPath_no_tilde
    simpa using hp

theorem scalarPost_of_processString (home : Option String) (rnd : Nat → Nat → Nat)
    (s name : String) (k : Nat) (s2 : String) (k2 : Nat) (hh : homeAbs home)
    (h : processString home rnd s name k = (s2, k2, none)) :
    scalarPost home name s2 = true := by
  unfold processString at h
  unfold scalarPost
  by_cases hsec : strHasSuffix name "Secret" = true
  · rw [if_pos hsec] at h ⊢
    by_cases hs : s = ""
    · rw [if_pos hs] at h
      simp only [Prod.mk.injEq] at h
      obtain ⟨rfl, -, -⟩ := h
      simp [GenerateJWTSecret_ne_empty rnd k]
    · rw [if_neg hs] at h
      simp only [Prod.mk.injEq] at h
      obtain ⟨rfl, -, -⟩ := h
      simp [hs]
  · rw [if_neg hsec] at h ⊢
    by_cases hpa : strHasSuffix name "Path" = true
    · rw [if_pos hpa] at h ⊢
      by_cases hs : s = ""
      · rw [if_pos hs] at h
        simp only [Prod.mk.injEq] at h
        obtain ⟨rfl, -, -⟩ := h
        simp [hs]
      · rw [if_neg hs] at h
        cases hex : ExpandPath home s with
        | error e => rw [hex] at h; simp at h
        | ok ex =>
          rw [hex] at h
          simp only [Prod.mk.injEq] at h
          obtain ⟨rfl, -, -⟩ := h
          have hfix := ExpandPath_result_no_tilde home s ex hh hex
          simp [hfix]
    · rw [if_neg hpa] at h ⊢
      by_cases hus : strHasSuffix name "User" = true
      · rw [if_pos hus] at h ⊢
        by_cases hs : s = ""
        · rw [if_pos hs] at h
          simp only [Prod.mk.injEq] at h
          obtain ⟨rfl, -, -⟩ := h
          simp [hs]
        · rw [if_neg hs] at h
          unfold ValidateUsername at h
          by_cases hm : usernameRegexMatch s = true
          · rw [if_pos hm] at h
            simp only [Prod.mk.injEq] at h
            obtain ⟨rfl, -, -⟩ := h
            simp [hm]
          · rw [if_neg hm] at h
            simp at h
      · rw [if_neg hus] at h ⊢
        by_cases hur : strHasSuffix name "URL" = true
        · rw [if_pos hur] at h ⊢
          by_cases hs : s = ""
          · rw [if_pos hs] at h
            simp only [Prod.mk.injEq] at h
            obtain ⟨rfl, -, -⟩ := h
            simp [hs]
          · rw [if_neg hs] at h
            unfold ValidateURL at h
            by_cases hm : urlHasSchemeHost s = true
            · rw [if_pos hm] at h
              simp only [Prod.mk.injEq] at h
              obtain ⟨rfl, -, -⟩ := h
              simp [hm]
            · rw [if_neg hm] at h
              simp at h
        · rw [if_neg hur]

theorem splitCh_ne_nil (sep : Char) (cs : List Char) : splitCh sep cs ≠ [] := by
  cases cs with
  | nil => simp [splitCh]
  | cons c rest =>
    by_cases h : c = sep
    · simp [splitCh, h]
    · simp only [splitCh, if_neg h]
      cases splitCh sep rest <;> simp

theorem splitCh_append (sep : Char) (a b : List Char) :
    splitCh sep (a ++ sep :: b) = splitCh sep a ++ splitCh sep b := by
  induction a with
  | nil => simp [splitCh]
  | cons c a2 ih =>
    by_cases h : c = sep
    · simp [splitCh, h, ih]
    · simp only [List.cons_append, splitCh, if_neg h, List.append_eq]
      rw [ih]
      cases hs : splitCh sep a2 with
      | nil => exact absurd hs (splitCh_ne_nil sep a2)
      | cons s ss => simp [hs]

theorem joinCh_splitCh (sep : Char) (cs : List Char) :
    joinCh sep (splitCh sep cs) = cs := by
  induction cs with
  | nil => rfl
  | cons c rest ih =>
    by_cases h : c = sep
    · subst h
      simp only [splitCh, if_pos rfl]
      cases hs : splitCh c rest with
      | nil => exact absurd hs (splitCh_ne_nil c rest)
      | cons s ss =>
        rw [hs] at ih
        simp [joinCh, ih]
    · simp only [splitCh, if_neg h]
      cases hs : splitCh sep rest with
      | nil => exact absurd hs (splitCh_ne_nil sep rest)
      | cons s ss =>
        rw [hs] at ih
        cases ss with
        | nil => simp [joinCh] at ih ⊢; rw [ih]
        | cons s2 ss2 => simp [joinCh] at ih ⊢; rw [ih]

theorem joinCh_append (sep : Char) (A B : List (List Char)) (hA : A ≠ []) (hB : B ≠ []) :
    joinCh sep (A ++ B) = joinCh sep A ++ sep :: joinCh sep B := by
  induction A with
  | nil => exact absurd rfl hA
  | cons a A2 ih =>
    cases A2 with
    | nil =>
      cases B with
      | nil => exact absurd rfl hB
      | cons b B2 => simp [joinCh]
    | cons a2 A3 =>
      have h2 := ih (by simp)
      have hstep : joinCh sep ((a :: a2 :: A3) ++ B) =
          a ++ sep :: joinCh sep ((a2 :: A3) ++ B) := rfl
      rw [hstep, h2]
      have hstep2 : joinCh sep (a :: a2 :: A3) = a ++ sep :: joinCh sep (a2 :: A3) := rfl
      rw [hstep2]
      simp

theorem cleanSegsGo_good (rooted : Bool) :
    ∀ (segs : List (List Char)) (acc : List (List Char)),
      (∀ seg ∈ segs, seg = [] ∨ GoodSeg seg) →
      cleanSegsGo rooted acc segs = acc.reverse ++ segs.filter (· ≠ []) := by
  intro segs
  induction segs with
  | nil => intro acc _; simp [cleanSegsGo]
  | cons seg rest ih =>
    intro acc hgood
    rcases hgood seg (by simp) with hnil | hseg
    · subst hnil
      have hstep : cleanSegsGo rooted acc ([] :: rest) = cleanSegsGo rooted acc rest := by
        simp [cleanSegsGo]
      rw [hstep, ih acc (fun s hs => hgood s (by simp [hs]))]
      simp
    · obtain ⟨h1, h2, h3⟩ := hseg
      have hstep : cleanSegsGo rooted acc (seg :: rest) = cleanSegsGo rooted (seg :: acc) rest := by
        simp [cleanSegsGo, h1, h2, h3]
      rw [hstep, ih (seg :: acc) (fun s hs => hgood s (by simp [hs]))]
      simp [h1]

theorem pathCleanChars_clean_abs (t : List Char) (_hne : t ≠ [])
    (hgood : ∀ seg ∈ splitCh '/' t, GoodSeg seg) :
    pathCleanChars ('/' :: t) = '/' :: t := by
  have hsplit : splitCh '/' ('/' :: t) = [] :: splitCh '/' t := by
    simp [splitCh]
  have hclean : cleanSegsGo true [] ([] :: splitCh '/' t) =
      ([] :: splitCh '/' t).filter (· ≠ []) := by
    have hg2 : ∀ seg ∈ [] :: splitCh '/' t, seg = [] ∨ GoodSeg seg := by
      intro seg hs
      rcases List.mem_cons.1 hs with h | h
      · left; exact h
      · right; exact hgood seg h
    have := cleanSegsGo_good true ([] :: splitCh '/' t) [] hg2
    simpa using this
  have hfilter : (splitCh '/' t).filter (· ≠ []) = splitCh '/' t := by
    apply List.filter_eq_self.2
    intro seg hs
    have := (hgood seg hs).1
    simpa using this
  have hout : cleanSegsGo true [] (splitCh '/' ('/' :: t)) = splitCh '/' t := by
    rw [hsplit, hclean]
    simp only [List.reverse_nil, List.nil_append, List.filter_cons]
    rw [if_neg (by simp)]
    exact hfilter
  have hshape : pathCleanChars ('/' :: t) =
      (match cleanSegsGo true [] (splitCh '/' ('/' :: t)) with
       | [] => ['/']
       | out => '/' :: joinCh '/' out) := by
    simp [pathCleanChars]
  rw [hshape, hout]
  cases hsp : splitCh '/' t with
  | nil => exact absurd hsp (splitCh_ne_nil '/' t)
  | cons s ss =>
    have : joinCh '/' (s :: ss) = t := by rw [← hsp, joinCh_splitCh]
    simp [this]

theorem findField_replaceField (nm : String) (w : GoVal) (fields : List (String × Bool × GoVal))
    (ex : Bool) (fv : GoVal) (h : findField nm fields = some (ex, fv)) :
    findField nm (replaceField nm w fields) = some (ex, w) := by
  induction fields with
  | nil => simp [findField] at h
  | cons f rest ih =>
    obtain ⟨fn, fex, fval⟩ := f
    by_cases hf : fn = nm
    · subst hf
      simp [findField, replaceField] at h ⊢
      exact h.1
    · simp [findField, replaceField, hf] at h ⊢
      exact ih h

theorem get_after_set (full full2 : String) :
    ∀ (parts : List String) (v dv w : GoVal) (ro : Bool), parts ≠ [] →
      getNestedFieldForWriteAux full ro v parts = .ok dv →
      (∀ x, dv ≠ GoVal.iface x) →
      getNestedFieldAux full2 (setNestedField v parts w) parts = .ok w := by
  intro parts
  induction parts with
  | nil => intro v dv w ro hne; exact absurd rfl hne
  | cons part rest ih =>
    intro v dv w ro _ hres hnif
    have hmain : ∀ fields : List (String × Bool × GoVal),
        getNestedFieldForWriteAux full ro (GoVal.structV fields) (part :: rest) = .ok dv →
        getNestedFieldAux full2 (setNestedField (GoVal.structV fields) (part :: rest) w)
          (part :: rest) = .ok w := by
      intro fields hres2
      cases hff : findField part fields with
      | none => simp [getNestedFieldForWriteAux, hff] at hres2
      | some exfv =>
        obtain ⟨ex, fv⟩ := exfv
        cases rest with
        | nil =>
          simp only [getNestedFieldForWriteAux, hff] at hres2
          by_cases hro : (ro || !ex) = true
          · rw [if_pos hro] at hres2; cases hres2
          · rw [if_neg hro] at hres2
            injection hres2 with hfd
            subst hfd
            have hnw : (match fv with | GoVal.iface _ => GoVal.iface w | _ => w) = w := by
              cases fv <;> first | rfl | exact (hnif _ rfl).elim
            simp [setNestedField, hff, hnw, getNestedFieldAux,
              findField_replaceField part w fields ex fv hff]
        | cons r2 rs =>
          simp only [getNestedFieldForWriteAux, hff] at hres2
          have hrec := ih fv dv w (ro || !ex) (by simp) hres2 hnif
          have hset : setNestedField (GoVal.structV fields) (part :: r2 :: rs) w =
              GoVal.structV (replaceField part (setNestedField fv (r2 :: rs) w) fields) := by
            rw [setNestedField]
            simp [hff]
          rw [hset]
          have hget : getNestedFieldAux full2
              (GoVal.structV (replaceField part (setNestedField fv (r2 :: rs) w) fields))
              (part :: r2 :: rs) =
              getNestedFieldAux full2 (setNestedField fv (r2 :: rs) w) (r2 :: rs) := by
            rw [getNestedFieldAux]
            simp [findField_replaceField part (setNestedField fv (r2 :: rs) w) fields ex fv hff]
          rw [hget]
          exact hrec
    cases v with
    | structV fields => exact hmain fields hres
    | ptrSome inner =>
      cases inner with
      | structV fields =>
        have e1 : getNestedFieldForWriteAux full ro (GoVal.ptrSome (GoVal.structV fields))
            (part :: rest) = getNestedFieldForWriteAux full ro (GoVal.structV fields)
            (part :: rest) := rfl
        rw [e1] at hres
        have e3 : ∃ fs2, setNestedField (GoVal.structV fields) (part :: rest) w =
            GoVal.structV fs2 := by
          cases hf : findField part fields with
          | none =>
            cases rest with
            | nil => exact ⟨_, by rw [setNestedField, hf]⟩
            | cons r2 rs => exact ⟨_, by rw [setNestedField, hf]⟩
          | some p =>
            obtain ⟨ex, fv⟩ := p
            cases rest with
            | nil => exact ⟨_, by rw [setNestedField, hf]⟩
            | cons r2 rs => exact ⟨_, by rw [setNestedField, hf]⟩
        obtain ⟨fs2, hfs2⟩ := e3
        have e4 : setNestedField (GoVal.ptrSome (GoVal.structV fields)) (part :: rest) w =
            GoVal.ptrSome (setNestedField (GoVal.structV fields) (part :: rest) w) := rfl
        rw [e4, hfs2]
        have e5 : getNestedFieldAux full2 (GoVal.ptrSome (GoVal.structV fs2)) (part :: rest) =
            getNestedFieldAux full2 (GoVal.structV fs2) (part :: rest) := rfl
        rw [e5, ← hfs2]
        exact hmain fields hres
      | str s => simp [getNestedFieldForWriteAux] at hres
      | intV n => simp [getNestedFieldForWriteAux] at hres
      | boolV b => simp [getNestedFieldForWriteAux] at hres
      | strMap es => simp [getNestedFieldForWriteAux] at hres
      | intKeyMap es => simp [getNestedFieldForWriteAux] at hres
      | slice els => simp [getNestedFieldForWriteAux] at hres
      | ptrNil => simp [getNestedFieldForWriteAux] at hres
      | ptrSome w2 => simp [getNestedFieldForWriteAux] at hres
      | iface w2 => simp [getNestedFieldForWriteAux] at hres
    | ptrNil => simp [getNestedFieldForWriteAux] at hres
    | str s => simp [getNestedFieldForWriteAux] at hres
    | intV n => simp [getNestedFieldForWriteAux] at hres
    | boolV b => simp [getNestedFieldForWriteAux] at hres
    | strMap es => simp [getNestedFieldForWriteAux] at hres
    | intKeyMap es => simp [getNestedFieldForWriteAux] at hres
    | slice els => simp [getNestedFieldForWriteAux] at hres
    | iface w2 => simp [getNestedFieldForWriteAux] at hres

theorem getNestedFieldAux_spec (full : String) :
    ∀ (parts : List String) (v : GoVal),
      getNestedFieldAux full v parts = resolveReadSpec full v parts := by
  intro parts
  induction parts with
  | nil => intro v; rfl
  | cons part rest ih =>
    intro v
    cases v with
    | structV fields =>
      simp only [getNestedFieldAux, resolveReadSpec, derefIndirection]
      cases hff : findField part fields with
      | none => rfl
      | some p => obtain ⟨ex, fv⟩ := p; exact ih fv
    | ptrSome inner =>
      cases inner with
      | structV fields =>
        simp only [getNestedFieldAux, resolveReadSpec, derefIndirection]
        cases hff : findField part fields with
        | none => rfl
        | some p => obtain ⟨ex, fv⟩ := p; exact ih fv
      | str s => rfl
      | intV n => rfl
      | boolV b => rfl
      | strMap es => rfl
      | intKeyMap es => rfl
      | slice els => rfl
      | ptrNil => rfl
      | ptrSome w2 => rfl
      | iface w2 => rfl
    | ptrNil => rfl
    | str s => rfl
    | intV n => rfl
    | boolV b => rfl
    | strMap es => rfl
    | intKeyMap es => rfl
    | slice els => rfl
    | iface w2 => rfl

theorem getNestedFieldForWriteAux_spec (full : String) :
    ∀ (parts : List String) (ro : Bool) (v : GoVal),
      getNestedFieldForWriteAux full ro v parts = resolveWriteSpec full ro v parts := by
  intro parts
  induction parts with
  | nil => intro ro v; rfl
  | cons part rest ih =>
    intro ro v
    cases v with
    | structV fields =>
      simp only [getNestedFieldForWriteAux, resolveWriteSpec, derefIndirection]
      cases hff : findField part fields with
      | none => rfl
      | some p =>
        obtain ⟨ex, fv⟩ := p
        cases rest with
        | nil => rfl
        | cons r2 rs => exact ih (ro || !ex) fv
    | ptrSome inner =>
      cases inner with
      | structV fields =>
        simp only [getNestedFieldForWriteAux, resolveWriteSpec, derefIndirection]
        cases hff : findField part fields with
        | none => rfl
        | some p =>
          obtain ⟨ex, fv⟩ := p
          cases rest with
          | nil => rfl
          | cons r2 rs => exact ih (ro || !ex) fv
      | str s => rfl
      | intV n => rfl
      | boolV b => rfl
      | strMap es => rfl
      | intKeyMap es => rfl
      | slice els => rfl
      | ptrNil => rfl
      | ptrSome w2 => rfl
      | iface w2 => rfl
    | ptrNil => rfl
    | str s => rfl
    | intV n => rfl
    | boolV b => rfl
    | strMap es => rfl
    | intKeyMap es => rfl
    | slice els => rfl
    | iface w2 => rfl

theorem processFields_cons (home : Option String) (rnd : Nat → Nat → Nat) (canSet : Bool)
    (nm : String) (ex : Bool) (v : GoVal) (rest : List (String × Bool × GoVal)) (k : Nat) :
    processFields home rnd canSet ((nm, ex, v) :: rest) k =
      if ex then
        (let r := processValue home rnd v nm canSet k
         match r.2.2 with
         | some err => ((nm, ex, r.1) :: rest, r.2.1, some err)
         | none =>
           let rr := processFields home rnd canSet rest r.2.1
           ((nm, ex, r.1) :: rr.1, rr.2.1, rr.2.2))
      else
        (let rr := processFields home rnd canSet rest k
         ((nm, ex, v) :: rr.1, rr.2.1, rr.2.2)) := by
  cases ex with
  | false => simp [processFields]
  | true =>
    cases v with
    | str s =>
      cases canSet with
      | true =>
        rcases hps : processString home rnd s nm k with ⟨s2, kk, e⟩
        have h1 : processValue home rnd (GoVal.str s) nm true k =
            (match e with
             | some err => (GoVal.str s, kk, some err)
             | none => (GoVal.str s2, kk, none)) := by
          cases e <;> simp [processValue, hps]
        cases e with
        | some err => simp [processFields, hps, h1]
        | none => simp [processFields, hps, h1]
      | false => simp [processFields, processValue]
    | iface w => simp [processFields]
    | ptrNil => simp [processFields]
    | ptrSome w => simp [processFields]
    | structV f2 => simp [processFields]
    | strMap es => simp [processFields]
    | intKeyMap es => simp [processFields]
    | slice els => simp [processFields]
    | intV n => simp [processFields]
    | boolV b => simp [processFields]

theorem processFields_error_append (home : Option String) (rnd : Nat → Nat → Nat) :
    ∀ (pre : List (String × Bool × GoVal)) (k : Nat) (pre2 : List (String × Bool × GoVal))
      (k1 : Nat) (nm s : String) (post : List (String × Bool × GoVal)) (e : PErr),
      processFields home rnd true pre k = (pre2, k1, none) →
      processString home rnd s nm k1 = (s, k1, some e) →
      processFields home rnd true (pre ++ (nm, true, GoVal.str s) :: post) k =
        (pre2 ++ (nm, true, GoVal.str s) :: post, k1, some e) := by
  intro pre
  induction pre with
  | nil =>
    intro k pre2 k1 nm s post e h1 h2
    simp [processFields] at h1
    obtain ⟨rfl, rfl⟩ := h1
    have hps : processValue home rnd (GoVal.str s) nm true k = (GoVal.str s, k, some e) := by
      simp [processValue, h2]
    simp [processFields_cons, hps]
  | cons f rest ih =>
    intro k pre2 k1 nm s post e h1 h2
    obtain ⟨fn, fex, fv⟩ := f
    rw [processFields_cons] at h1
    rw [List.cons_append, processFields_cons]
    cases fex with
    | false =>
      rw [if_neg (by simp)] at h1 ⊢
      rcases hrr : processFields home rnd true rest k with ⟨rest2, kmid, e2⟩
      rw [hrr] at h1
      simp only [Prod.mk.injEq] at h1
      obtain ⟨rfl, rfl, rfl⟩ := h1
      rw [ih _ _ _ _ _ _ _ hrr h2]
      simp
    | true =>
      rw [if_pos rfl] at h1 ⊢
      rcases hr : processValue home rnd fv fn true k with ⟨v2, kmid, e0⟩
      simp only [hr] at h1 ⊢
      cases e0 with
      | some err => simp at h1
      | none =>
        rcases hrr : processFields home rnd true rest kmid with ⟨rest2, kend, e2⟩
        simp only [hrr, Prod.mk.injEq] at h1
        obtain ⟨rfl, rfl, rfl⟩ := h1
        rw [ih _ _ _ _ _ _ _ hrr h2]
        simp

mutual

theorem processValue_good (home : Option String) (rnd : Nat → Nat → Nat) (hh : homeAbs home)
    (v : GoVal) (name : String) (canSet : Bool) (k : Nat) (out : GoVal) (k2 : Nat)
    (h : processValue home rnd v name canSet k = (out, k2, none)) :
    goodVal home out name canSet = true := by
  cases v with
  | iface w =>
    rcases hr : processValue home rnd w name false k with ⟨w2, kk, e⟩
    simp [processValue, hr] at h
    obtain ⟨rfl, rfl, rfl⟩ := h
    simp only [goodVal]
    exact processValue_good home rnd hh w name false k w2 kk hr
  | ptrNil =>
    simp [processValue] at h
    obtain ⟨rfl, rfl⟩ := h
    rfl
  | ptrSome w =>
    rcases hr : processValue home rnd w name true k with ⟨w2, kk, e⟩
    simp [processValue, hr] at h
    obtain ⟨rfl, rfl, rfl⟩ := h
    simp only [goodVal]
    exact processValue_good home rnd hh w name true k w2 kk hr
  | structV fields =>
    rcases hr : processFields home rnd canSet fields k with ⟨fs2, kk, e⟩
    simp [processValue, hr] at h
    obtain ⟨rfl, rfl, rfl⟩ := h
    simp only [goodVal]
    exact processFields_good home rnd hh canSet fields k fs2 kk hr
  | strMap entries =>
    rcases hr : processEntries home rnd entries k with ⟨es2, kk, e⟩
    simp [processValue, hr] at h
    obtain ⟨rfl, rfl, rfl⟩ := h
    simp only [goodVal]
    exact processEntries_good home rnd hh entries k es2 kk hr
  | intKeyMap entries =>
    simp [processValue] at h
    obtain ⟨rfl, rfl⟩ := h
    rfl
  | slice elems =>
    rcases hr : processElems home rnd name elems k with ⟨els2, kk, e⟩
    simp [processValue, hr] at h
    obtain ⟨rfl, rfl, rfl⟩ := h
    simp only [goodVal]
    exact processElems_good home rnd hh name elems k els2 kk hr
  | str s =>
    cases canSet with
    | false =>
      simp [processValue] at h
      obtain ⟨rfl, rfl⟩ := h
      rfl
    | true =>
      rcases hr : processString home rnd s name k with ⟨s2, kk, e⟩
      cases e with
      | some err => simp [processValue, hr] at h
      | none =>
        simp [processValue, hr] at h
        obtain ⟨rfl, rfl⟩ := h
        simp only [goodVal, Bool.not_true, Bool.false_or]
        exact scalarPost_of_processString home rnd s name k s2 kk hh hr
  | intV n =>
    simp [processValue] at h
    obtain ⟨rfl, rfl⟩ := h
    rfl
  | boolV b =>
    simp [processValue] at h
    obtain ⟨rfl, rfl⟩ := h
    rfl
termination_by sizeOf v

theorem processFields_good (home : Option String) (rnd : Nat → Nat → Nat) (hh : homeAbs home)
    (canSet : Bool) (fs : List (String × Bool × GoVal)) (k : Nat)
    (out : List (String × Bool × GoVal)) (k2 : Nat)
    (h : processFields home rnd canSet fs k = (out, k2, none)) :
    goodFields home canSet out = true := by
  match fs with
  | [] =>
    simp [processFields] at h
    obtain ⟨rfl, rfl⟩ := h
    rfl
  | (nm, ex, v) :: rest =>
    cases ex with
    | false =>
      rcases hrr : processFields home rnd canSet rest k with ⟨fs2, kk, e⟩
      simp [processFields, hrr] at h
      obtain ⟨rfl, rfl, rfl⟩ := h
      simp only [goodFields, Bool.not_false, Bool.true_or, Bool.true_and]
      exact processFields_good home rnd hh canSet rest k fs2 kk hrr
    | true =>
      have hstep : ∀ v2 kk e2, processValue home rnd v nm canSet k = (v2, kk, e2) →
          processFields home rnd canSet ((nm, true, v) :: rest) k =
            (match e2 with
             | some err => ((nm, true, v2) :: rest, kk, some err)
             | none =>
               let rr := processFields home rnd canSet rest kk
               ((nm, true, v2) :: rr.1, rr.2.1, rr.2.2)) := by
        intro v2 kk e2 hr
        cases v with
        | str s =>
          cases canSet with
          | true =>
            rcases hps : processString home rnd s nm k with ⟨s3, kk3, e3⟩
            cases e3 with
            | some err3 =>
              have hr2 : processValue home rnd (GoVal.str s) nm true k =
                  (GoVal.str s, kk3, some err3) := by
                simp [processValue, hps]
              rw [hr2] at hr
              simp only [Prod.mk.injEq] at hr
              obtain ⟨rfl, rfl, rfl⟩ := hr
              simp [processFields, hps]
            | none =>
              have hr2 : processValue home rnd (GoVal.str s) nm true k =
                  (GoVal.str s3, kk3, none) := by
                simp [processValue, hps]
              rw [hr2] at hr
              simp only [Prod.mk.injEq] at hr
              obtain ⟨rfl, rfl, rfl⟩ := hr
              simp [processFields, hps]
          | false =>
            simp only [processValue, Prod.mk.injEq] at hr
            obtain ⟨rfl, rfl, rfl⟩ := hr
            simp [processFields, processValue]
        | iface w => simp [processFields, hr]
        | ptrNil => simp [processFields, hr]
        | ptrSome w => simp [processFields, hr]
        | structV f2 => simp [processFields, hr]
        | strMap es => simp [processFields, hr]
        | intKeyMap es => simp [processFields, hr]
        | slice els => simp [processFields, hr]
        | intV n => simp [processFields, hr]
        | boolV b => simp [processFields, hr]
      rcases hr : processValue home rnd v nm canSet k with ⟨v2, kk, e2⟩
      rw [hstep v2 kk e2 hr] at h
      cases e2 with
      | some err => simp at h
      | none =>
        rcases hrr : processFields home rnd canSet rest kk with ⟨fs2, kk2, e3⟩
        simp [hrr] at h
        obtain ⟨rfl, rfl, rfl⟩ := h
        simp only [goodFields, Bool.not_true, Bool.false_or, Bool.and_eq_true]
        constructor
        · exact processValue_good home rnd hh v nm canSet k v2 kk hr
        · exact processFields_good home rnd hh canSet rest kk fs2 kk2 hrr
termination_by sizeOf fs

theorem processEntries_good (home : Option String) (rnd : Nat → Nat → Nat) (hh : homeAbs home)
    (es : List (String × GoVal)) (k : Nat) (out : List (String × GoVal)) (k2 : Nat)
    (h : processEntries home rnd es k = (out, k2, none)) :
    goodEntries home out = true := by
  match es with
  | [] =>
    simp [processEntries] at h
    obtain ⟨rfl, rfl⟩ := h
    rfl
  | (key, v) :: rest =>
    rcases hr : processMapVal home rnd key v k with ⟨v2, kk, e⟩
    cases e with
    | some err => simp [processEntries, hr] at h
    | none =>
      rcases hrr : processEntries home rnd rest kk with ⟨es2, kk2, e2⟩
      simp [processEntries, hr, hrr] at h
      obtain ⟨rfl, rfl, rfl⟩ := h
      simp only [goodEntries, Bool.and_eq_true]
      constructor
      · exact processMapVal_good home rnd hh key v k v2 kk hr
      · exact processEntries_good home rnd hh rest kk es2 kk2 hrr
termination_by sizeOf es

theorem processMapVal_good (home : Option String) (rnd : Nat → Nat → Nat) (hh : homeAbs home)
    (key : String) (v : GoVal) (k : Nat) (out : GoVal) (k2 : Nat)
    (h : processMapVal home rnd key v k = (out, k2, none)) :
    goodMapVal home key out = true := by
  cases v with
  | iface w =>
    rcases hr : processMapVal home rnd key w k with ⟨w2, kk, e⟩
    simp [processMapVal, hr] at h
    obtain ⟨rfl, rfl, rfl⟩ := h
    simp only [goodMapVal]
    exact processMapVal_good home rnd hh key w k w2 kk hr
  | str s =>
    rcases hr : processString home rnd s key k with ⟨s2, kk, e⟩
    cases e with
    | some err => simp [processMapVal, hr] at h
    | none =>
      simp [processMapVal, hr] at h
      obtain ⟨rfl, rfl⟩ := h
      simp only [goodMapVal]
      exact scalarPost_of_processString home rnd s key k s2 kk hh hr
  | structV fields =>
    rcases hr : processFields home rnd true fields k with ⟨fs2, kk, e⟩
    simp [processMapVal, hr] at h
    obtain ⟨rfl, rfl, rfl⟩ := h
    simp only [goodMapVal]
    exact processFields_good home rnd hh true fields k fs2 kk hr
  | strMap entries =>
    rcases hr : processEntries home rnd entries k with ⟨es2, kk, e⟩
    simp [processMapVal, hr] at h
    obtain ⟨rfl, rfl, rfl⟩ := h
    simp only [goodMapVal]
    exact processEntries_good home rnd hh entries k es2 kk hr
  | intKeyMap entries =>
    simp [processMapVal] at h
    obtain ⟨rfl, rfl⟩ := h
    rfl
  | slice elems =>
    rcases hr : processElems home rnd key elems k with ⟨els2, kk, e⟩
    simp [processMapVal, hr] at h
    obtain ⟨rfl, rfl, rfl⟩ := h
    simp only [goodMapVal]
    exact processElems_good home rnd hh key elems k els2 kk hr
  | ptrNil =>
    simp [processMapVal] at h
    obtain ⟨rfl, rfl⟩ := h
    rfl
  | ptrSome w =>
    rcases hr : processValue home rnd w key true k with ⟨w2, kk, e⟩
    simp [processMapVal, hr] at h
    obtain ⟨rfl, rfl, rfl⟩ := h
    simp only [goodMapVal]
    exact processValue_good home rnd hh w key true k w2 kk hr
  | intV n =>
    simp [processMapVal] at h
    obtain ⟨rfl, rfl⟩ := h
    rfl
  | boolV b =>
    simp [processMapVal] at h
    obtain ⟨rfl, rfl⟩ := h
    rfl
termination_by sizeOf v

theorem processElems_good (home : Option String) (rnd : Nat → Nat → Nat) (hh : homeAbs home)
    (name : String) (els : List GoVal) (k : Nat) (out : List GoVal) (k2 : Nat)
    (h : processElems home rnd name els k = (out, k2, none)) :
    goodElems home name out = true := by
  match els with
  | [] =>
    simp [processElems] at h
    obtain ⟨rfl, rfl⟩ := h
    rfl
  | e :: rest =>
    rcases hr : processSliceElem home rnd name e k with ⟨e2, kk, err⟩
    cases err with
    | some err0 => simp [processElems, hr] at h
    | none =>
      rcases hrr : processElems home rnd name rest kk with ⟨els2, kk2, err2⟩
      simp [processElems, hr, hrr] at h
      obtain ⟨rfl, rfl, rfl⟩ := h
      simp only [goodElems, Bool.and_eq_true]
      constructor
      · exact processSliceElem_good home rnd hh name e k e2 kk hr
      · exact processElems_good home rnd hh name rest kk els2 kk2 hrr
termination_by sizeOf els

theorem processSliceElem_good (home : Option String) (rnd : Nat → Nat → Nat) (hh : homeAbs home)
    (name : String) (v : GoVal) (k : Nat) (out : GoVal) (k2 : Nat)
    (h : processSliceElem home rnd name v k = (out, k2, none)) :
    goodSliceElem home name out = true := by
  cases v with
  | str s =>
    rcases hr : processString home rnd s name k with ⟨s2, kk, e⟩
    cases e with
    | some err => simp [processSliceElem, hr] at h
    | none =>
      simp [processSliceElem, hr] at h
      obtain ⟨rfl, rfl⟩ := h
      simp only [goodSliceElem]
      exact scalarPost_of_processString home rnd s name k s2 kk hh hr
  | iface w =>
    rcases hr : processSliceBoxed home rnd name w k with ⟨w2, kk, e⟩
    simp [processSliceElem, hr] at h
    obtain ⟨rfl, rfl, rfl⟩ := h
    simp only [goodSliceElem]
    exact processSliceBoxed_good home rnd hh name w k w2 kk hr
  | structV fields =>
    rcases hr : processFields home rnd true fields k with ⟨fs2, kk, e⟩
    simp [processSliceElem, hr] at h
    obtain ⟨rfl, rfl, rfl⟩ := h
    simp only [goodSliceElem]
    exact processFields_good home rnd hh true fields k fs2 kk hr
  | strMap entries =>
    rcases hr : processEntries home rnd entries k with ⟨es2, kk, e⟩
    simp [processSliceElem, hr] at h
    obtain ⟨rfl, rfl, rfl⟩ := h
    simp only [goodSliceElem]
    exact processEntries_good home rnd hh entries k es2 kk hr
  | intKeyMap entries =>
    simp [processSliceElem] at h
    obtain ⟨rfl, rfl⟩ := h
    rfl
  | slice elems =>
    rcases hr : processElems home rnd name elems k with ⟨els2, kk, e⟩
    simp [processSliceElem, hr] at h
    obtain ⟨rfl, rfl, rfl⟩ := h
    simp only [goodSliceElem]
    exact processElems_good home rnd hh name elems k els2 kk hr
  | ptrNil =>
    simp [processSliceElem] at h
    obtain ⟨rfl, rfl⟩ := h
    rfl
  | ptrSome w =>
    rcases hr : processValue home rnd w name true k with ⟨w2, kk, e⟩
    simp [processSliceElem, hr] at h
    obtain ⟨rfl, rfl, rfl⟩ := h
    simp only [goodSliceElem]
    exact processValue_good home rnd hh w name true k w2 kk hr
  | intV n =>
    simp [processSliceElem] at h
    obtain ⟨rfl, rfl⟩ := h
    rfl
  | boolV b =>
    simp [processSliceElem] at h
    obtain ⟨rfl, rfl⟩ := h
    rfl
termination_by sizeOf v

theorem processSliceBoxed_good (home : Option String) (rnd : Nat → Nat → Nat) (hh : homeAbs home)
    (name : String) (v : GoVal) (k : Nat) (out : GoVal) (k2 : Nat)
    (h : processSliceBoxed home rnd name v k = (out, k2, none)) :
    goodSliceBoxed home name out = true := by
  cases v with
  | str s =>
    simp [processSliceBoxed] at h
    obtain ⟨rfl, rfl⟩ := h
    rfl
  | iface w =>
    rcases hr : processSliceBoxed home rnd name w k with ⟨w2, kk, e⟩
    simp [processSliceBoxed, hr] at h
    obtain ⟨rfl, rfl, rfl⟩ := h
    simp only [goodSliceBoxed]
    exact processSliceBoxed_good home rnd hh name w k w2 kk hr
  | structV fields =>
    rcases hr : processFields home rnd true fields k with ⟨fs2, kk, e⟩
    simp [processSliceBoxed, hr] at h
    obtain ⟨rfl, rfl, rfl⟩ := h
    simp only [goodSliceBoxed]
    exact processFields_good home rnd hh true fields k fs2 kk hr
  | strMap entries =>
    rcases hr : processEntries home rnd entries k with ⟨es2, kk, e⟩
    simp [processSliceBoxed, hr] at h
    obtain ⟨rfl, rfl, rfl⟩ := h
    simp only [goodSliceBoxed]
    exact processEntries_good home rnd hh entries k es2 kk hr
  | intKeyMap entries =>
    simp [processSliceBoxed] at h
    obtain ⟨rfl, rfl⟩ := h
    rfl
  | slice elems =>
    rcases hr : processElems home rnd name elems k with ⟨els2, kk, e⟩
    simp [processSliceBoxed, hr] at h
    obtain ⟨rfl, rfl, rfl⟩ := h
    simp only [goodSliceBoxed]
    exact processElems_good home rnd hh name elems k els2 kk hr
  | ptrNil =>
    simp [processSliceBoxed] at h
    obtain ⟨rfl, rfl⟩ := h
    rfl
  | ptrSome w =>
    rcases hr : processValue home rnd w name true k with ⟨w2, kk, e⟩
    simp [processSliceBoxed, hr] at h
    obtain ⟨rfl, rfl, rfl⟩ := h
    simp only [goodSliceBoxed]
    exact processValue_good home rnd hh w name true k w2 kk hr
  | intV n =>
    simp [processSliceBoxed] at h
    obtain ⟨rfl, rfl⟩ := h
    rfl
  | boolV b =>
    simp [processSliceBoxed] at h
    obtain ⟨rfl, rfl⟩ := h
    rfl
termination_by sizeOf v

end

theorem splitPath_ne_nil (p : String) : splitPath p ≠ [] := by
  unfold splitPath
  intro h
  rw [List.map_eq_nil_iff] at h
  exact splitCh_ne_nil '.' p.data h

theorem ValidateUsername_ok_iff (u : String) :
    ValidateUsername u = .ok () ↔ specUsernameAccept u := by
  unfold ValidateUsername
  constructor
  · intro h
    by_cases hm : usernameRegexMatch u = true
    · unfold usernameRegexMatch at hm
      unfold specUsernameAccept
      cases hd : u.data with
      | nil => rw [hd] at hm; cases hm
      | cons c rest =>
        rw [hd] at hm
        simp only [Bool.and_eq_true, decide_eq_true_eq, List.all_eq_true] at hm
        obtain ⟨⟨hfc, hlen⟩, hall⟩ := hm
        refine ⟨by simp, by simp; omega, ?_, ?_⟩
        · intro d hdd
          simp only [List.head?_cons, Option.some.injEq] at hdd
          subst hdd
          exact hfc
        · intro d hdd
          simp only [List.tail_cons] at hdd
          exact hall d hdd
    · rw [if_neg hm] at h; cases h
  · intro hs
    obtain ⟨hne, hlen, hfirst, hrest⟩ := hs
    have hm : usernameRegexMatch u = true := by
      unfold usernameRegexMatch
      cases hd : u.data with
      | nil => rw [hd] at hne; exact absurd rfl hne
      | cons c rest =>
        simp only [Bool.and_eq_true, decide_eq_true_eq, List.all_eq_true]
        refine ⟨⟨hfirst c (by rw [hd]; rfl), ?_⟩, ?_⟩
        · rw [hd] at hlen; simp at hlen; omega
        · intro d hdd
          refine hrest d ?_
          rw [hd]
          exact hdd
    rw [if_pos hm]

theorem pathCleanChars_rooted_mixed (u : List Char)
    (hgood : ∀ seg ∈ splitCh '/' u, seg = [] ∨ GoodSeg seg)
    (hfne : (splitCh '/' u).filter (· ≠ []) ≠ []) :
    pathCleanChars ('/' :: u) = '/' :: joinCh '/' ((splitCh '/' u).filter (· ≠ [])) := by
  have hsplit : splitCh '/' ('/' :: u) = [] :: splitCh '/' u := by simp [splitCh]
  have hg2 : ∀ seg ∈ [] :: splitCh '/' u, seg = [] ∨ GoodSeg seg := by
    intro seg hs
    rcases List.mem_cons.1 hs with h | h
    · left; exact h
    · exact hgood seg h
  have hclean := cleanSegsGo_good true ([] :: splitCh '/' u) [] hg2
  have hout : cleanSegsGo true [] (splitCh '/' ('/' :: u)) =
      (splitCh '/' u).filter (· ≠ []) := by
    rw [hsplit, hclean]
    simp [List.filter_cons]
  have hshape : pathCleanChars ('/' :: u) =
      (match cleanSegsGo true [] (splitCh '/' ('/' :: u)) with
       | [] => ['/']
       | out => '/' :: joinCh '/' out) := by
    simp [pathCleanChars]
  rw [hshape, hout]
  cases hsp : (splitCh '/' u).filter (· ≠ []) with
  | nil => exact absurd hsp hfne
  | cons s ss => simp

/-! Claim theorems -/

/-- C1 (amended): after a successful Process run, with the home directory,
when available, an absolute path, every string of the resulting tree in a
position the traversal processes satisfies the postcondition of the rule
selected by its inherited name, as expressed by goodVal: settable direct
string struct fields and slice elements (classified by the enclosing
container name, not the index), map values under their keys even when
boxed, and pointer targets. Strings boxed in an interface inside a struct
field or slice element, and strings in non settable positions, are skipped
by the traversal and carry no obligation. -/
theorem c1_processed_strings_satisfy_rules (home : Option String) (rnd : Nat → Nat → Nat)
    (cfg out : GoVal) (k2 : Nat) (hh : homeAbs home)
    (h : Process home rnd cfg = (out, k2, none)) :
    goodVal home out "" false = true :=
  processValue_good home rnd hh cfg "" false 0 out k2 h

/-- C1, counterexample to the claim as stated: a slice under a field named
AdminUser holds an interface boxed string that is not a valid username.
Process succeeds without validating or changing it, because the reflect
value obtained by unboxing a slice element is not settable, so the claim
that every slice element string with a User suffixed inherited name meets
the rule postcondition fails. -/
theorem c1_counterexample :
    Process none (fun _ _ => 0)
        (GoVal.ptrSome (GoVal.structV
          [("AdminUser", true, GoVal.slice [GoVal.iface (GoVal.str "NOT A VALID USER")])])) =
      (GoVal.ptrSome (GoVal.structV
          [("AdminUser", true, GoVal.slice [GoVal.iface (GoVal.str "NOT A VALID USER")])]),
       0, none) ∧
    strHasSuffix "AdminUser" "User" = true ∧
    usernameRegexMatch "NOT A VALID USER" = false ∧
    "NOT A VALID USER" ≠ "" := by
  refine ⟨rfl, rfl, rfl, ?_⟩
  decide

/-- C1, witness: a concrete successful run on a tree with a struct, a map
with a boxed value, and a slice, to which the amended theorem applies. -/
theorem c1_witness :
    homeAbs (some "/home/user") ∧
    Process (some "/home/user") (fun _ _ => 0)
        (GoVal.ptrSome (GoVal.structV
          [("ApiSecret", true, GoVal.str "abc"),
           ("DataPath", true, GoVal.str "/var/data"),
           ("Owners", true, GoVal.strMap [("adminUser", GoVal.iface (GoVal.str "root"))]),
           ("MirrorURL", true, GoVal.slice [GoVal.str "http://mirror.example.com"])])) =
      (GoVal.ptrSome (GoVal.structV
          [("ApiSecret", true, GoVal.str "abc"),
           ("DataPath", true, GoVal.str "/var/data"),
           ("Owners", true, GoVal.strMap [("adminUser", GoVal.iface (GoVal.str "root"))]),
           ("MirrorURL", true, GoVal.slice [GoVal.str "http://mirror.example.com"])]),
       0, none) ∧
    goodVal (some "/home/user")
        (GoVal.ptrSome (GoVal.structV
          [("ApiSecret", true, GoVal.str "abc"),
           ("DataPath", true, GoVal.str "/var/data"),
           ("Owners", true, GoVal.strMap [("adminUser", GoVal.iface (GoVal.str "root"))]),
           ("MirrorURL", true, GoVal.slice [GoVal.str "http://mirror.example.com"])]))
        "" false = true := by
  refine ⟨rfl, rfl, ?_⟩
  exact c1_processed_strings_satisfy_rules (some "/home/user") (fun _ _ => 0)
    (GoVal.ptrSome (GoVal.structV
      [("ApiSecret", true, GoVal.str "abc"),
       ("DataPath", true, GoVal.str "/var/data"),
       ("Owners", true, GoVal.strMap [("adminUser", GoVal.iface (GoVal.str "root"))]),
       ("MirrorURL", true, GoVal.slice [GoVal.str "http://mirror.example.com"])]))
    (GoVal.ptrSome (GoVal.structV
      [("ApiSecret", true, GoVal.str "abc"),
       ("DataPath", true, GoVal.str "/var/data"),
       ("Owners", true, GoVal.strMap [("adminUser", GoVal.iface (GoVal.str "root"))]),
       ("MirrorURL", true, GoVal.slice [GoVal.str "http://mirror.example.com"])]))
    0 rfl rfl

/-- C2: for a name with the Secret suffix, the scalar rule replaces an
empty value by the hex encoding of 32 bytes drawn from the random source,
64 lowercase hexadecimal characters long, and leaves every nonempty value
unchanged without consuming randomness. -/
theorem c2_secret_rule (home : Option String) (rnd : Nat → Nat → Nat) (name : String) (k : Nat)
    (hname : strHasSuffix name "Secret" = true) :
    processString home rnd "" name k = (GenerateJWTSecret rnd k, k + 1, none) ∧
    (GenerateJWTSecret rnd k).data.length = 64 ∧
    (GenerateJWTSecret rnd k).data.all isHexDigitLower = true ∧
    (∀ s : String, s ≠ "" → processString home rnd s name k = (s, k, none)) := by
  refine ⟨?_, GenerateJWTSecret_length rnd k, GenerateJWTSecret_all_hex rnd k, ?_⟩
  · simp [processString, hname]
  · intro s hs
    simp [processString, hname, hs]

/-- C2, witness at the name JWTSecret and a constant random source. -/
theorem c2_witness :
    strHasSuffix "JWTSecret" "Secret" = true ∧
    (processString none (fun _ _ => 0) "" "JWTSecret" 0 =
        (GenerateJWTSecret (fun _ _ => 0) 0, 1, none) ∧
      (GenerateJWTSecret (fun _ _ => 0) 0).data.length = 64 ∧
      (GenerateJWTSecret (fun _ _ => 0) 0).data.all isHexDigitLower = true ∧
      (∀ s : String, s ≠ "" →
        processString none (fun _ _ => 0) s "JWTSecret" 0 = (s, 0, none))) :=
  ⟨rfl, c2_secret_rule none (fun _ _ => 0) "JWTSecret" 0 rfl⟩

/-- C3: the scalar rule engine returns the original value unchanged, with
the counter unchanged, whenever it errors; at the struct level the first
failing field aborts the loop with that error, leaving the failing field
and all later fields untouched while fields already processed keep their
new values; and Process surfaces the same error through the root. -/
theorem c3_fail_fast :
    (∀ (home : Option String) (rnd : Nat → Nat → Nat) (s n : String) (k : Nat)
        (v2 : String) (k2 : Nat) (e : PErr),
        processString home rnd s n k = (v2, k2, some e) → v2 = s ∧ k2 = k) ∧
    (∀ (home : Option String) (rnd : Nat → Nat → Nat)
        (pre pre2 post : List (String × Bool × GoVal)) (k k1 : Nat) (nm s : String) (e : PErr),
        processFields home rnd true pre k = (pre2, k1, none) →
        processString home rnd s nm k1 = (s, k1, some e) →
        processFields home rnd true (pre ++ (nm, true, GoVal.str s) :: post) k =
          (pre2 ++ (nm, true, GoVal.str s) :: post, k1, some e)) ∧
    (∀ (home : Option String) (rnd : Nat → Nat → Nat)
        (pre pre2 post : List (String × Bool × GoVal)) (k1 : Nat) (nm s : String) (e : PErr),
        processFields home rnd true pre 0 = (pre2, k1, none) →
        processString home rnd s nm k1 = (s, k1, some e) →
        Process home rnd
            (GoVal.ptrSome (GoVal.structV (pre ++ (nm, true, GoVal.str s) :: post))) =
          (GoVal.ptrSome (GoVal.structV (pre2 ++ (nm, true, GoVal.str s) :: post)),
           k1, some e)) := by
  refine ⟨?_, ?_, ?_⟩
  · intro home rnd s n k v2 k2 e h
    unfold processString at h
    by_cases hsec : strHasSuffix n "Secret" = true
    · rw [if_pos hsec] at h
      by_cases hs : s = ""
      · rw [if_pos hs] at h; simp at h
      · rw [if_neg hs] at h; simp at h
    · rw [if_neg hsec] at h
      by_cases hpa : strHasSuffix n "Path" = true
      · rw [if_pos hpa] at h
        by_cases hs : s = ""
        · rw [if_pos hs] at h; simp at h
        · rw [if_neg hs] at h
          cases hex : ExpandPath home s with
          | ok ex => rw [hex] at h; simp at h
          | error e2 =>
            rw [hex] at h
            simp only [Prod.mk.injEq] at h
            exact ⟨h.1.symm, h.2.1.symm⟩
      · rw [if_neg hpa] at h
        by_cases hus : strHasSuffix n "User" = true
        · rw [if_pos hus] at h
          by_cases hs : s = ""
          · rw [if_pos hs] at h; simp at h
          · rw [if_neg hs] at h
            cases hv : ValidateUsername s with
            | ok uu => rw [hv] at h; simp at h
            | error e2 =>
              rw [hv] at h
              simp only [Prod.mk.injEq] at h
              exact ⟨h.1.symm, h.2.1.symm⟩
        · rw [if_neg hus] at h
          by_cases hur : strHasSuffix n "URL" = true
          · rw [if_pos hur] at h
            by_cases hs : s = ""
            · rw [if_pos hs] at h; simp at h
            · rw [if_neg hs] at h
              cases hv : ValidateURL s with
              | ok uu => rw [hv] at h; simp at h
              | error e2 =>
                rw [hv] at h
                simp only [Prod.mk.injEq] at h
                exact ⟨h.1.symm, h.2.1.symm⟩
          · rw [if_neg hur] at h; simp at h
  · intro home rnd pre pre2 post k k1 nm s e h1 h2
    exact processFields_error_append home rnd pre k pre2 k1 nm s post e h1 h2
  · intro home rnd pre pre2 post k1 nm s e h1 h2
    have hb := processFields_error_append home rnd pre 0 pre2 k1 nm s post e h1 h2
    simp [Process, processValue, hb]

/-- C3, witness: a path field already expanded before a user field fails
validation; the error propagates through Process, the failing and later
fields are untouched, and the earlier expansion is not rolled back. -/
theorem c3_witness :
    processFields (some "/h") (fun _ _ => 0) true [("LogPath", true, GoVal.str "~/logs")] 0 =
      ([("LogPath", true, GoVal.str "/h/logs")], 0, none) ∧
    processString (some "/h") (fun _ _ => 0) "BAD!" "DbUser" 0 =
      ("BAD!", 0, some (PErr.invalidUsername "BAD!")) ∧
    Process (some "/h") (fun _ _ => 0)
        (GoVal.ptrSome (GoVal.structV
          ([("LogPath", true, GoVal.str "~/logs")] ++
            ("DbUser", true, GoVal.str "BAD!") :: [("WebUser", true, GoVal.str "ALSO BAD!")]))) =
      (GoVal.ptrSome (GoVal.structV
          ([("LogPath", true, GoVal.str "/h/logs")] ++
            ("DbUser", true, GoVal.str "BAD!") :: [("WebUser", true, GoVal.str "ALSO BAD!")])),
       0, some (PErr.invalidUsername "BAD!")) := by
  refine ⟨rfl, rfl, ?_⟩
  exact c3_fail_fast.2.2 (some "/h") (fun _ _ => 0)
    [("LogPath", true, GoVal.str "~/logs")] [("LogPath", true, GoVal.str "/h/logs")]
    [("WebUser", true, GoVal.str "ALSO BAD!")] 0 "DbUser" "BAD!"
    (PErr.invalidUsername "BAD!") rfl rfl

/-- C4: when the source path resolves to a string and the destination path
resolves for writing to a string typed slot, CopyProperty succeeds, the
returned source tree is the unmodified input, and reading the destination
path from the updated destination yields the copied string. -/
theorem c4_copy_round_trip (srcFields dstFields : List (String × Bool × GoVal))
    (sp dp X : String) (dv : GoVal)
    (hsrc : getNestedField (GoVal.structV srcFields) sp = .ok (GoVal.str X))
    (hdst : getNestedFieldForWrite (GoVal.structV dstFields) dp = .ok dv)
    (hty : tyOf dv = GoTy.stringT) :
    CopyProperty (GoVal.ptrSome (GoVal.structV srcFields)) sp
        (GoVal.ptrSome (GoVal.structV dstFields)) dp =
      (GoVal.ptrSome (GoVal.structV srcFields),
       GoVal.ptrSome (setNestedField (GoVal.structV dstFields) (splitPath dp) (GoVal.str X)),
       none) ∧
    getNestedField (setNestedField (GoVal.structV dstFields) (splitPath dp) (GoVal.str X)) dp =
      .ok (GoVal.str X) := by
  constructor
  · have ha : assignableTo (tyOf (GoVal.str X)) (tyOf dv) = true := by
      rw [hty]; rfl
    simp only [CopyProperty, hsrc, hdst]
    rw [ha]
    simp
  · have hnif : ∀ x, dv ≠ GoVal.iface x := by
      intro x hx
      rw [hx] at hty
      simp [tyOf] at hty
    unfold getNestedField
    unfold getNestedFieldForWrite at hdst
    exact get_after_set dp dp (splitPath dp) (GoVal.structV dstFields) dv (GoVal.str X)
      false (splitPath_ne_nil dp) hdst hnif

/-- C4, witness: copy the string at a.b into the slot at c.d. -/
theorem c4_witness :
    getNestedField (GoVal.structV [("a", true, GoVal.structV [("b", true, GoVal.str "X")])])
        "a.b" = .ok (GoVal.str "X") ∧
    getNestedFieldForWrite
        (GoVal.structV [("c", true, GoVal.structV [("d", true, GoVal.str "old")])]) "c.d" =
      .ok (GoVal.str "old") ∧
    tyOf (GoVal.str "old") = GoTy.stringT ∧
    (CopyProperty
        (GoVal.ptrSome (GoVal.structV [("a", true, GoVal.structV [("b", true, GoVal.str "X")])]))
        "a.b"
        (GoVal.ptrSome (GoVal.structV [("c", true, GoVal.structV [("d", true, GoVal.str "old")])]))
        "c.d" =
      (GoVal.ptrSome (GoVal.structV [("a", true, GoVal.structV [("b", true, GoVal.str "X")])]),
       GoVal.ptrSome (setNestedField
         (GoVal.structV [("c", true, GoVal.structV [("d", true, GoVal.str "old")])])
         (splitPath "c.d") (GoVal.str "X")),
       none) ∧
     getNestedField (setNestedField
         (GoVal.structV [("c", true, GoVal.structV [("d", true, GoVal.str "old")])])
         (splitPath "c.d") (GoVal.str "X")) "c.d" = .ok (GoVal.str "X")) :=
  ⟨rfl, rfl, rfl,
   c4_copy_round_trip
     [("a", true, GoVal.structV [("b", true, GoVal.str "X")])]
     [("c", true, GoVal.structV [("d", true, GoVal.str "old")])]
     "a.b" "c.d" "X" (GoVal.str "old") rfl rfl rfl⟩

/-- C5: both nested field resolvers agree with the resolvers written from
the specification words over the dot separated segments of the path: at
each segment one indirection is dereferenced, a nil indirection is a nil
reference error, a non struct node is a structural error, an absent field
is a field not found error, and in write mode the final field must be
settable, else a not settable error. -/
theorem c5_path_resolution (v : GoVal) (path : String) :
    getNestedField v path = resolveReadSpec path v (splitPath path) ∧
    getNestedFieldForWrite v path = resolveWriteSpec path false v (splitPath path) :=
  ⟨getNestedFieldAux_spec path (splitPath path) v,
   getNestedFieldForWriteAux_spec path (splitPath path) false v⟩

/-- C6: when the resolved source slot type is not assignable to the
resolved destination slot type, CopyProperty reports a type mismatch error
naming both types, and both trees come back unmodified. -/
theorem c6_copy_type_mismatch (srcFields dstFields : List (String × Bool × GoVal))
    (sp dp : String) (sv dv : GoVal)
    (hsrc : getNestedField (GoVal.structV srcFields) sp = .ok sv)
    (hdst : getNestedFieldForWrite (GoVal.structV dstFields) dp = .ok dv)
    (hty : assignableTo (tyOf sv) (tyOf dv) = false) :
    CopyProperty (GoVal.ptrSome (GoVal.structV srcFields)) sp
        (GoVal.ptrSome (GoVal.structV dstFields)) dp =
      (GoVal.ptrSome (GoVal.structV srcFields), GoVal.ptrSome (GoVal.structV dstFields),
       some (CopyErr.typeMismatch (tyOf sv) dp (tyOf dv))) := by
  simp only [CopyProperty, hsrc, hdst]
  rw [hty]
  simp

/-- C6, witness: an integer slot copied toward a string slot. -/
theorem c6_witness :
    getNestedField (GoVal.structV [("Count", true, GoVal.intV 7)]) "Count" =
      .ok (GoVal.intV 7) ∧
    getNestedFieldForWrite (GoVal.structV [("Name", true, GoVal.str "x")]) "Name" =
      .ok (GoVal.str "x") ∧
    assignableTo (tyOf (GoVal.intV 7)) (tyOf (GoVal.str "x")) = false ∧
    CopyProperty (GoVal.ptrSome (GoVal.structV [("Count", true, GoVal.intV 7)])) "Count"
        (GoVal.ptrSome (GoVal.structV [("Name", true, GoVal.str "x")])) "Name" =
      (GoVal.ptrSome (GoVal.structV [("Count", true, GoVal.intV 7)]),
       GoVal.ptrSome (GoVal.structV [("Name", true, GoVal.str "x")]),
       some (CopyErr.typeMismatch (tyOf (GoVal.intV 7)) "Name" (tyOf (GoVal.str "x")))) :=
  ⟨rfl, rfl, rfl,
   c6_copy_type_mismatch [("Count", true, GoVal.intV 7)] [("Name", true, GoVal.str "x")]
     "Count" "Name" (GoVal.intV 7) (GoVal.str "x") rfl rfl rfl⟩

/-- C7: ValidateUsername accepts exactly the strings matching the anchored
pattern, restated from the specification words; in particular it rejects
the empty string, any string containing an uppercase letter, any string
starting with a digit, and any string longer than 32 characters. -/
theorem c7_username_validation :
    (∀ u : String, ValidateUsername u = .ok () ↔ specUsernameAccept u) ∧
    ValidateUsername "" ≠ .ok () ∧
    (∀ (u : String) (c : Char), c ∈ u.data → 65 ≤ c.toNat → c.toNat ≤ 90 →
      ValidateUsername u ≠ .ok ()) ∧
    (∀ (u : String) (c : Char) (rest : List Char), u.data = c :: rest →
      48 ≤ c.toNat → c.toNat ≤ 57 → ValidateUsername u ≠ .ok ()) ∧
    (∀ u : String, 32 < u.data.length → ValidateUsername u ≠ .ok ()) := by
  refine ⟨ValidateUsername_ok_iff, ?_, ?_, ?_, ?_⟩
  · intro hok
    rw [show ValidateUsername "" = Except.error (PErr.invalidUsername "") from rfl] at hok
    exact Except.noConfusion hok
  · intro u c hc h65 h90 hok
    obtain ⟨hne, hlen, hfirst, hrest⟩ := (ValidateUsername_ok_iff u).1 hok
    cases hd : u.data with
    | nil => rw [hd] at hc; cases hc
    | cons d tail =>
      rw [hd] at hc
      rcases List.mem_cons.1 hc with hcd | hct
      · subst hcd
        have := hfirst c (by rw [hd]; rfl)
        simp only [usernameFirstChar, Bool.or_eq_true, Bool.and_eq_true,
          decide_eq_true_eq] at this
        omega
      · have := hrest c (by rw [hd]; exact hct)
        simp only [usernameRestChar, Bool.or_eq_true, Bool.and_eq_true,
          decide_eq_true_eq] at this
        omega
  · intro u c rest hd h48 h57 hok
    obtain ⟨hne, hlen, hfirst, hrest⟩ := (ValidateUsername_ok_iff u).1 hok
    have := hfirst c (by rw [hd]; rfl)
    simp only [usernameFirstChar, Bool.or_eq_true, Bool.and_eq_true,
      decide_eq_true_eq] at this
    omega
  · intro u hlong hok
    obtain ⟨hne, hlen, hfirst, hrest⟩ := (ValidateUsername_ok_iff u).1 hok
    omega

/-- C7, witness: the rejection conjuncts applied at an uppercase letter, a
leading digit, and a 33 character string; the characterization applied at
a valid name. -/
theorem c7_witness :
    (ValidateUsername "myuser" = .ok () ↔ specUsernameAccept "myuser") ∧
    ('B' ∈ "xBy".data ∧ 65 ≤ 'B'.toNat ∧ 'B'.toNat ≤ 90 ∧ ValidateUsername "xBy" ≠ .ok ()) ∧
    ("9abc".data = '9' :: ['a', 'b', 'c'] ∧ 48 ≤ '9'.toNat ∧ '9'.toNat ≤ 57 ∧
      ValidateUsername "9abc" ≠ .ok ()) ∧
    (32 < "aaaaaaaaaaaaaaaaaaaaaaaaaaaaaaaaa".data.length ∧
      ValidateUsername "aaaaaaaaaaaaaaaaaaaaaaaaaaaaaaaaa" ≠ .ok ()) :=
  ⟨c7_username_validation.1 "myuser",
   ⟨by decide, by decide, by decide,
    c7_username_validation.2.2.1 "xBy" 'B' (by decide) (by decide) (by decide)⟩,
   ⟨by decide, by decide, by decide,
    c7_username_validation.2.2.2.1 "9abc" '9' ['a', 'b', 'c'] (by decide) (by decide) (by decide)⟩,
   ⟨by decide,
    c7_username_validation.2.2.2.2 "aaaaaaaaaaaaaaaaaaaaaaaaaaaaaaaaa" (by decide)⟩⟩

/-- C8: a path that does not start with a tilde is returned unchanged by
ExpandPath, whatever the home provider says, so expansion is a fixed point
once no leading tilde remains; a lone tilde expands to the home directory;
and a tilde followed by a slash and a relative path expands to the home
directory joined with that path. The home directory is taken clean and
absolute, and the relative part clean, as a real home directory is. -/
theorem c8_expand_path :
    (∀ (home : Option String) (p : String), p ≠ "" → leadingTilde p = false →
      ExpandPath home p = .ok p) ∧
    (∀ h : String, cleanAbsPath h → ExpandPath (some h) "~" = .ok h) ∧
    (∀ h x : String, cleanAbsPath h → cleanRelPath x →
      ExpandPath (some h) ("~/" ++ x) = .ok (h ++ "/" ++ x)) := by
  refine ⟨?_, ?_, ?_⟩
  · intro home p _ hp
    exact ExpandPath_no_tilde home p hp
  · rintro h ⟨t, hdata, hne, hgood⟩
    have hhe : h ≠ "" := by
      intro he; rw [eq_empty_iff_data] at he; rw [he] at hdata; cases hdata
    have hstep : ExpandPath (some h) "~" = .ok (filepathJoin2 h "") := rfl
    rw [hstep]
    have hjoin : filepathJoin2 h "" = pathClean h := by
      unfold filepathJoin2
      rw [if_neg hhe, if_pos rfl]
    rw [hjoin]
    unfold pathClean
    rw [hdata, pathCleanChars_clean_abs t hne hgood]
    exact congrArg Except.ok (String.ext (by rw [hdata]))
  · rintro h x ⟨t, hdata, hne, hgood⟩ ⟨hxne, hxgood⟩
    have hhe : h ≠ "" := by
      intro he; rw [eq_empty_iff_data] at he; rw [he] at hdata; cases hdata
    have hxe : String.mk ('/' :: x.data) ≠ "" := by
      intro he; rw [eq_empty_iff_data] at he; cases he
    have hlt : leadingTilde ("~/" ++ x) = true := by
      unfold leadingTilde
      rw [data_append]
      rfl
    have hdrop : ("~/" ++ x).data.drop 1 = '/' :: x.data := by
      rw [data_append]
      rfl
    have hstep : ExpandPath (some h) ("~/" ++ x) =
        .ok (filepathJoin2 h (String.mk ('/' :: x.data))) := by
      unfold ExpandPath
      rw [hlt, hdrop]
      simp
    rw [hstep]
    have hjoin : filepathJoin2 h (String.mk ('/' :: x.data)) =
        pathClean (h ++ "/" ++ String.mk ('/' :: x.data)) := by
      unfold filepathJoin2
      rw [if_neg hhe, if_neg hxe]
    rw [hjoin]
    have hdata2 : (h ++ "/" ++ String.mk ('/' :: x.data)).data =
        '/' :: (t ++ '/' :: ('/' :: x.data)) := by
      rw [data_append, data_append, hdata]
      simp
    have hsegs : splitCh '/' (t ++ '/' :: ('/' :: x.data)) =
        splitCh '/' t ++ ([] :: splitCh '/' x.data) := by
      have hx2 : splitCh '/' ('/' :: x.data) = [] :: splitCh '/' x.data := by
        simp [splitCh]
      rw [splitCh_append, hx2]
    have hmixgood : ∀ seg ∈ splitCh '/' (t ++ '/' :: ('/' :: x.data)),
        seg = [] ∨ GoodSeg seg := by
      rw [hsegs]
      intro seg hs
      rcases List.mem_append.1 hs with hs1 | hs2
      · right; exact hgood seg hs1
      · rcases List.mem_cons.1 hs2 with hnil | hs3
        · left; exact hnil
        · right; exact hxgood seg hs3
    have hfilterT : (splitCh '/' t).filter (· ≠ []) = splitCh '/' t :=
      List.filter_eq_self.2 (fun seg hs => by simpa using (hgood seg hs).1)
    have hfilterX : (splitCh '/' x.data).filter (· ≠ []) = splitCh '/' x.data :=
      List.filter_eq_self.2 (fun seg hs => by simpa using (hxgood seg hs).1)
    have hfilter : (splitCh '/' (t ++ '/' :: ('/' :: x.data))).filter (· ≠ []) =
        splitCh '/' t ++ splitCh '/' x.data := by
      rw [hsegs, List.filter_append, hfilterT, List.filter_cons]
      rw [if_neg (by simp)]
      rw [hfilterX]
    have hfne : (splitCh '/' (t ++ '/' :: ('/' :: x.data))).filter (· ≠ []) ≠ [] := by
      rw [hfilter]
      intro hcon
      exact splitCh_ne_nil '/' t (List.append_eq_nil.1 hcon).1
    unfold pathClean
    rw [hdata2, pathCleanChars_rooted_mixed _ hmixgood hfne, hfilter]
    rw [joinCh_append '/' _ _ (splitCh_ne_nil '/' t) (splitCh_ne_nil '/' x.data)]
    rw [joinCh_splitCh, joinCh_splitCh]
    apply congrArg Except.ok
    apply String.ext
    rw [data_append, data_append, hdata]
    simp

/-- C8, witness: the three conjuncts at a concrete home directory, a
concrete relative path, and a concrete tilde free path. -/
theorem c8_witness :
    ("/etc/conf" ≠ "" ∧ leadingTilde "/etc/conf" = false ∧
      ExpandPath (some "/home/user") "/etc/conf" = .ok "/etc/conf") ∧
    (cleanAbsPath "/home/user" ∧ ExpandPath (some "/home/user") "~" = .ok "/home/user") ∧
    (cleanRelPath "docs/notes" ∧
      ExpandPath (some "/home/user") ("~/" ++ "docs/notes") =
        .ok ("/home/user" ++ "/" ++ "docs/notes")) := by
  have habs : cleanAbsPath "/home/user" := by
    refine ⟨"home/user".data, by decide, by decide, by decide⟩
  have hrel : cleanRelPath "docs/notes" := by
    exact ⟨by decide, by decide⟩
  exact ⟨⟨by decide, by decide,
          c8_expand_path.1 (some "/home/user") "/etc/conf" (by decide) (by decide)⟩,
         ⟨habs, c8_expand_path.2.1 "/home/user" habs⟩,
         ⟨hrel, c8_expand_path.2.2 "/home/user" "docs/notes" habs hrel⟩⟩

/-- C9 (amended): the traversal silently skips every mapping whose key
type is not a string, returning success with the mapping untouched and no
structural error of any kind. -/
theorem c9_non_string_key_map_skipped (home : Option String) (rnd : Nat → Nat → Nat)
    (entries : List (Int × GoVal)) (name : String) (canSet : Bool) (k : Nat) :
    processValue home rnd (GoVal.intKeyMap entries) name canSet k =
      (GoVal.intKeyMap entries, k, none) := by
  simp [processValue]

/-- C9, counterexample to the claim as stated: a mapping with integer keys
holding an invalid username under a User suffixed field name is traversed
with success and left untouched, instead of failing with a structural
error. -/
theorem c9_counterexample :
    Process none (fun _ _ => 0)
        (GoVal.ptrSome (GoVal.structV
          [("BadUser", true, GoVal.intKeyMap [(1, GoVal.str "NOT A USER")])])) =
      (GoVal.ptrSome (GoVal.structV
          [("BadUser", true, GoVal.intKeyMap [(1, GoVal.str "NOT A USER")])]),
       0, none) := rfl

/-- C10: a struct whose fields are all unexported or direct strings is
left completely unchanged, with no error, when it is not addressable, so
an invalid username or URL in such a field is silently accepted; and a
struct whose fields are all unexported is left unchanged with no error at
any settability. -/
theorem c10_unprocessed_strings :
    (∀ (home : Option String) (rnd : Nat → Nat → Nat) (fs : List (String × Bool × GoVal))
        (name : String) (k : Nat),
        (∀ f ∈ fs, f.2.1 = false ∨ ∃ s, f.2.2 = GoVal.str s) →
        processValue home rnd (GoVal.structV fs) name false k = (GoVal.structV fs, k, none)) ∧
    (∀ (home : Option String) (rnd : Nat → Nat → Nat) (fs : List (String × Bool × GoVal))
        (name : String) (canSet : Bool) (k : Nat),
        (∀ f ∈ fs, f.2.1 = false) →
        processValue home rnd (GoVal.structV fs) name canSet k = (GoVal.structV fs, k, none)) := by
  constructor
  · intro home rnd fs name k hall
    have haux : ∀ (fs2 : List (String × Bool × GoVal)) (k2 : Nat),
        (∀ f ∈ fs2, f.2.1 = false ∨ ∃ s, f.2.2 = GoVal.str s) →
        processFields home rnd false fs2 k2 = (fs2, k2, none) := by
      intro fs2
      induction fs2 with
      | nil => intro k2 _; simp [processFields]
      | cons f rest ih =>
        intro k2 hall2
        obtain ⟨fn, fex, fv⟩ := f
        rw [processFields_cons]
        rcases hall2 (fn, fex, fv) (by simp) with hunex | ⟨s, hstr⟩
        · simp only at hunex
          subst hunex
          rw [if_neg (by simp)]
          rw [ih k2 (fun f hf => hall2 f (by simp [hf]))]
        · simp only at hstr
          subst hstr
          cases fex with
          | false =>
            rw [if_neg (by simp)]
            rw [ih k2 (fun f hf => hall2 f (by simp [hf]))]
          | true =>
            rw [if_pos rfl]
            have hv : processValue home rnd (GoVal.str s) fn false k2 =
                (GoVal.str s, k2, none) := by simp [processValue]
            rw [hv]
            simp only []
            rw [ih k2 (fun f hf => hall2 f (by simp [hf]))]
    simp [processValue, haux fs k hall]
  · intro home rnd fs name canSet k hall
    have haux : ∀ (fs2 : List (String × Bool × GoVal)) (k2 : Nat),
        (∀ f ∈ fs2, f.2.1 = false) →
        processFields home rnd canSet fs2 k2 = (fs2, k2, none) := by
      intro fs2
      induction fs2 with
      | nil => intro k2 _; simp [processFields]
      | cons f rest ih =>
        intro k2 hall2
        obtain ⟨fn, fex, fv⟩ := f
        have hunex := hall2 (fn, fex, fv) (by simp)
        simp only at hunex
        subst hunex
        rw [processFields_cons, if_neg (by simp)]
        rw [ih k2 (fun f hf => hall2 f (by simp [hf]))]
    simp [processValue, haux fs k hall]

/-- C10, witness: a by value struct with an invalid username in an
exported string field is accepted unchanged, and an unexported field with
an invalid value is skipped even on an addressable struct. -/
theorem c10_witness :
    (∀ f ∈ [("AdminUser", true, GoVal.str "NOT_VALID!")],
      f.2.1 = false ∨ ∃ s, f.2.2 = GoVal.str s) ∧
    processValue none (fun _ _ => 0)
        (GoVal.structV [("AdminUser", true, GoVal.str "NOT_VALID!")]) "" false 0 =
      (GoVal.structV [("AdminUser", true, GoVal.str "NOT_VALID!")], 0, none) ∧
    usernameRegexMatch "NOT_VALID!" = false ∧
    (∀ f ∈ [("dbUser", false, GoVal.str "ALSO BAD")], f.2.1 = false) ∧
    processValue none (fun _ _ => 0)
        (GoVal.structV [("dbUser", false, GoVal.str "ALSO BAD")]) "" true 0 =
      (GoVal.structV [("dbUser", false, GoVal.str "ALSO BAD")], 0, none) := by
  have h1 : ∀ f ∈ [("AdminUser", true, GoVal.str "NOT_VALID!")],
      f.2.1 = false ∨ ∃ s, f.2.2 = GoVal.str s := by
    intro f hf
    simp only [List.mem_singleton] at hf
    subst hf
    exact Or.inr ⟨"NOT_VALID!", rfl⟩
  have h2 : ∀ f ∈ [("dbUser", false, GoVal.str "ALSO BAD")], f.2.1 = false := by
    intro f hf
    simp only [List.mem_singleton] at hf
    subst hf
    rfl
  exact ⟨h1,
    c10_unprocessed_strings.1 none (fun _ _ => 0)
      [("AdminUser", true, GoVal.str "NOT_VALID!")] "" 0 h1,
    rfl, h2,
    c10_unprocessed_strings.2 none (fun _ _ => 0)
      [("dbUser", false, GoVal.str "ALSO BAD")] "" true 0 h2⟩

end DropsiteConfig
